import Mathlib

/-!
Verification of the single-file repository `src/refactor_controllers.py`, a
source-to-source rewriter that wraps stereotyped Express-style handlers with
an `asyncHandler` call and removes their inline try/catch.

The Python program applies `re.sub` with the pattern

  (export const \w+ = async \(req: RequestWithTraceContext, res: Response\) => \{)\s*
  ((?:const \{ traceId, spanId \} = req;\s*)?)
  try \{(.*?)\} catch \(error(?::\s*any)?\) \{.*?\}\s*\};

under `re.DOTALL`.  For this particular pattern the backtracking engine is
deterministic: every greedy `\s*` and the optional group are immediately
followed by a required literal that starts with a non-whitespace character
(`const`, `try`, `any`, `}`), so shrinking a maximal whitespace run can never
rescue a failed continuation, and the optional trace group is taken exactly
when its literal is present.  The two branches of `(?::\s*any)?` are decided
by the single character after `error` (`:` versus `)`), and `\w+` cannot
backtrack because the following literal starts with a space.  The non-greedy
`(.*?)` captures are resolved as "earliest position where the continuation
succeeds".  We therefore embed the matcher as a deterministic scanner over
`List Char`; characters are treated at ASCII fidelity (the `\s` and `\w`
classes are modelled by their ASCII fragments, which cover every literal the
pattern and the specification mention).

The `re.sub` driver scans left to right, replacing non-overlapping matches
and advancing one character after a failed position; it is embedded with a
fuel argument (the document length bounds the number of scan steps) so that
concrete instances reduce inside the kernel.
-/

set_option maxRecDepth 100000

namespace Refactor

/-- Python's whitespace class `\s` (and the default class of `str.rstrip`),
ASCII fragment: space, tab, newline, carriage return, vertical tab, form feed. -/
def pyWs (c : Char) : Bool :=
  c = ' ' || c = '\t' || c = '\n' || c = '\r' || c = '\x0b' || c = '\x0c'

/-- Python's word class `\w`, ASCII fragment: letters, digits, underscore. -/
def isWordC (c : Char) : Bool :=
  ('a' ≤ c && c ≤ 'z') || ('A' ≤ c && c ≤ 'Z') || ('0' ≤ c && c ≤ '9') || c = '_'

/-- First fixed literal of capture group 1: `export const `. -/
def expLit : List Char := "export const ".toList

/-- Tail of capture group 1 after the handler name. -/
def declTail : List Char :=
  " = async (req: RequestWithTraceContext, res: Response) => \x7b".toList

/-- The literal trace-extraction statement of capture group 2. -/
def traceLit : List Char := "const \x7b traceId, spanId \x7d = req;".toList

/-- The literal `try {` opening the handler body in the pattern. -/
def tryLit : List Char := "try \x7b".toList

/-- The fixed 14-character start of the catch clause: `} catch (error`. -/
def catchLit : List Char := "\x7d catch (error".toList

/-- Continuation of the catch clause when `error` has no type annotation. -/
def parenLit : List Char := ") \x7b".toList

/-- Continuation of the catch clause after `:` and whitespace: `any) {`. -/
def anyLit : List Char := "any) \x7b".toList

/-- The final `};` literal closing the whole matched handler. -/
def closeLit : List Char := "\x7d;".toList

/-- Strip a literal from the front of a string: `dropLit p s = some r` iff
`s = p ++ r`. -/
def dropLit : List Char → List Char → Option (List Char)
  | [], s => some s
  | _ :: _, [] => none
  | p :: ps, c :: cs => if p = c then dropLit ps cs else none

/-- Capture group 1: `export const \w+ = async \(req: ...\) => \{`.
`\w+` is greedy and is followed by a literal starting with a space, so it
matches exactly the maximal run of word characters, which must be nonempty. -/
def parseDecl (s : List Char) : Option (List Char × List Char) :=
  match dropLit expLit s with
  | none => none
  | some t =>
    let n := t.takeWhile isWordC
    if n.isEmpty then none
    else
      match dropLit declTail (t.dropWhile isWordC) with
      | none => none
      | some r => some (n, r)

/-- Capture group 2: `((?:const \{ traceId, spanId \} = req;\s*)?)`.  The
group is entered exactly when its leading literal is present, and the capture
includes the greedy trailing whitespace run. -/
def parseTrace (s : List Char) : List Char × List Char :=
  match dropLit traceLit s with
  | none => ([], s)
  | some t => (traceLit ++ t.takeWhile pyWs, t.dropWhile pyWs)

/-- The catch clause head `\} catch \(error(?::\s*any)?\) \{` anchored at the
start of `s`; returns the remaining suffix on success.  The optional group is
decided by the character following `error`. -/
def catchHead (s : List Char) : Option (List Char) :=
  match dropLit catchLit s with
  | none => none
  | some t =>
    if t.take 1 = [')'] then dropLit parenLit t
    else if t.take 1 = [':'] then dropLit anyLit ((t.drop 1).dropWhile pyWs)
    else none

/-- One attempt of the closing pattern `\}\s*\};` anchored at the start of
`s`; returns the suffix after the final `;`. -/
def closeTry (s : List Char) : Option (List Char) :=
  if s.take 1 = ['\x7d'] then dropLit closeLit ((s.drop 1).dropWhile pyWs)
  else none

/-- The non-greedy `.*?\}\s*\};`: scan for the earliest position at which
`closeTry` succeeds. -/
def findClose : List Char → Option (List Char)
  | [] => none
  | c :: t =>
    match closeTry (c :: t) with
    | some r => some r
    | none => findClose t

/-- The non-greedy body capture `(.*?)` followed by the catch clause and the
close: the body ends at the earliest position where the catch head matches
and a close exists after it; returns the captured body and the suffix after
the whole match. -/
def findCatch : List Char → Option (List Char × List Char)
  | [] => none
  | c :: t =>
    match catchHead (c :: t) with
    | some u =>
      match findClose u with
      | some v => some ([], v)
      | none => (findCatch t).map fun p => (c :: p.1, p.2)
    | none => (findCatch t).map fun p => (c :: p.1, p.2)

/-- One MatchRecord: handler name (group 1's `\w+`), trace capture (group 2,
including its trailing whitespace), raw body (group 3), and the document
suffix after the match. -/
structure MRec where
  name : List Char
  trace : List Char
  body : List Char
  rest : List Char
deriving DecidableEq

/-- Attempt to match the whole pattern at the start of `s`. -/
def matchAt (s : List Char) : Option MRec :=
  match parseDecl s with
  | none => none
  | some (n, t1) =>
    match parseTrace (t1.dropWhile pyWs) with
    | (tr, t3) =>
      match dropLit tryLit t3 with
      | none => none
      | some t4 =>
        match findCatch t4 with
        | none => none
        | some (b, r) => some ⟨n, tr, b, r⟩

/-- Four spaces, the fixed indentation unit removed by `replace_func`. -/
def sp4 : List Char := "    ".toList

/-- Per-line de-indentation: `line[4:]` when the line starts with four
spaces, the line unchanged otherwise (lines 20-24 of the source). -/
def cleanLine (l : List Char) : List Char :=
  if sp4.isPrefixOf l then l.drop 4 else l

/-- Python `body.split('\n')`: split at every newline, keeping empty parts. -/
def splitNL : List Char → List (List Char)
  | [] => [[]]
  | c :: t =>
    if c = '\n' then [] :: splitNL t
    else
      match splitNL t with
      | [] => [[c]]
      | h :: r => (c :: h) :: r

/-- Python `'\n'.join(lines)`. -/
def joinNL : List (List Char) → List Char
  | [] => []
  | [l] => l
  | l :: l' :: r => l ++ '\n' :: joinNL (l' :: r)

/-- The cleaned body of lines 18-25: split, de-indent each line, re-join. -/
def cleanJoin (b : List Char) : List Char :=
  joinNL ((splitNL b).map cleanLine)

/-- Python `str.rstrip()`: drop trailing whitespace. -/
def rstrip (l : List Char) : List Char :=
  (l.reverse.dropWhile pyWs).reverse

/-- Fueled worker for Python `str.replace`: replace every leftmost,
non-overlapping occurrence of `pat` by `rep`.  The fuel only needs to bound
the length of the subject string. -/
def strRepGo (pat rep : List Char) : Nat → List Char → List Char
  | 0, s => s
  | _ + 1, [] => []
  | f + 1, c :: t =>
    if pat.isPrefixOf (c :: t) then rep ++ strRepGo pat rep f ((c :: t).drop pat.length)
    else c :: strRepGo pat rep f t

/-- Python `s.replace(pat, rep)` for a nonempty `pat` (both uses in the
source have nonempty patterns). -/
def strReplace (s pat rep : List Char) : List Char := strRepGo pat rep s.length s

/-- The literal `export const` (no trailing space), first `replace` argument. -/
def exportLit : List Char := "export const".toList

/-- The literal ` = async (` rewritten by the declaration rewriter. -/
def asyncLit : List Char := " = async (".toList

/-- The replacement ` = asyncHandler(async (`. -/
def asyncHandlerLit : List Char := " = asyncHandler(async (".toList

/-- Lines 28-34: `func_decl.replace('export const', 'export const')
.replace(' = async (', ' = asyncHandler(async (')`. -/
def mkNewDecl (d : List Char) : List Char :=
  strReplace (strReplace d exportLit exportLit) asyncLit asyncHandlerLit

/-- The full text of capture group 1 for handler name `n`. -/
def declOf (n : List Char) : List Char := expLit ++ n ++ declTail

/-- The closing tokens `\n});` appended at line 40. -/
def endLit : List Char := "\n\x7d);".toList

/-- Lines 12-42, `replace_func`: compose the replacement text of one match. -/
def replaceFunc (r : MRec) : List Char :=
  mkNewDecl (declOf r.name) ++ "\n".toList
    ++ (if r.trace.isEmpty then [] else r.trace)
    ++ rstrip (cleanJoin r.body) ++ endLit

/-- Fueled `re.sub` scan: try to match at each position; on success emit the
replacement and continue after the match, otherwise copy one character. -/
def subFuel : Nat → List Char → List Char
  | 0, s => s
  | f + 1, s =>
    match s with
    | [] => []
    | c :: t =>
      match matchAt (c :: t) with
      | some r => replaceFunc r ++ subFuel f r.rest
      | none => c :: subFuel f t

/-- Lines 4-47, `refactor_controller`: the whole transformation. -/
def refactor_controller (s : List Char) : List Char := subFuel s.length s

/-- Whether the pattern matches anywhere in the document (the scan finds at
least one match). -/
def hasMatch : List Char → Bool
  | [] => (matchAt []).isSome
  | c :: t => (matchAt (c :: t)).isSome || hasMatch t

/-- The usage message printed when no path argument is supplied (line 53). -/
def usageMsg : List Char := "Usage: python refactor_controllers.py <file_path>".toList

/-- Observable outcome of one CLI invocation (lines 49-64): text printed to
standard output, the process exit status, the path read (if any), and the
path/content written (if any). -/
structure CliOut where
  stdout : List (List Char)
  exitCode : Nat
  readPath : Option (List Char)
  written : Option (List Char × List Char)
deriving DecidableEq

/-- Lines 49-64, the `__main__` block: `sys.argv[1] if len(sys.argv) > 1
else None`, the falsy check `if not file_path` (which also catches an empty
path string), `sys.exit(1)` after printing the usage message, otherwise read,
transform, overwrite, and print the confirmation.  `fs` maps a path to the
content read from it. -/
def cliMain (argv : List (List Char)) (fs : List Char → List Char) : CliOut :=
  match argv[1]? with
  | none => ⟨[usageMsg], 1, none, none⟩
  | some p =>
    if p.isEmpty then ⟨[usageMsg], 1, none, none⟩
    else
      let content := fs p
      let refactored := refactor_controller content
      ⟨["Refactored ".toList ++ p], 0, some p, some (p, refactored)⟩

/-- The §8 scenario input document (the handler exactly as printed, module
base indentation of the code block; no trailing newline). -/
def scenarioInput : List Char :=
  ("export const getUser = async (req: RequestWithTraceContext, res: Response) => \x7b\n" ++
   "  const \x7b traceId, spanId \x7d = req;\n" ++
   "  try \x7b\n" ++
   "    const user = await fetchUser(req.params.id);\n" ++
   "    res.json(user);\n" ++
   "  \x7d catch (error: any) \x7b\n" ++
   "    res.status(500).json(\x7b error: error.message \x7d);\n" ++
   "  \x7d\n" ++
   "\x7d;").toList

/-- The §8 expected output document: exactly five lines. -/
def scenarioExpected : List Char :=
  ("export const getUser = asyncHandler(async (req: RequestWithTraceContext, res: Response) => \x7b\n" ++
   "const \x7b traceId, spanId \x7d = req;\n" ++
   "const user = await fetchUser(req.params.id);\n" ++
   "res.json(user);\n" ++
   "\x7d);").toList

/-- What the code actually produces on the §8 scenario input: the expected
five lines, except that a residual line holding the two spaces captured with
the trace statement's trailing whitespace appears between the trace line and
the first body line. -/
def scenarioActual : List Char :=
  ("export const getUser = asyncHandler(async (req: RequestWithTraceContext, res: Response) => \x7b\n" ++
   "const \x7b traceId, spanId \x7d = req;\n" ++
   "  \n" ++
   "const user = await fetchUser(req.params.id);\n" ++
   "res.json(user);\n" ++
   "\x7d);").toList

/-! ### Basic properties of the scanning primitives -/

theorem dropLit_iff (p : List Char) : ∀ s r, dropLit p s = some r ↔ s = p ++ r := by
  induction p with
  | nil =>
    intro s r
    simp [dropLit, eq_comm]
  | cons p ps ih =>
    intro s r
    cases s with
    | nil => simp [dropLit]
    | cons c cs =>
      by_cases h : p = c
      · subst h
        simp [dropLit, ih]
      · simp [dropLit, h, Ne.symm h]

theorem dropLit_self (p s : List Char) : dropLit p (p ++ s) = some s :=
  (dropLit_iff p (p ++ s) s).mpr rfl

theorem takeWhile_append_of (p : Char → Bool) :
    ∀ (w t : List Char), (∀ c ∈ w, p c = true) →
      (∀ c t', t = c :: t' → p c = false) →
      (w ++ t).takeWhile p = w ∧ (w ++ t).dropWhile p = t := by
  intro w
  induction w with
  | nil =>
    intro t _ ht
    cases t with
    | nil => simp
    | cons c t' =>
      have hc := ht c t' rfl
      simp [List.takeWhile_cons, List.dropWhile_cons, hc]
  | cons a w ih =>
    intro t hw ht
    have ha : p a = true := hw a (by simp)
    have hrec := ih t (fun c hc => hw c (List.mem_cons_of_mem a hc)) ht
    simp [List.takeWhile_cons, List.dropWhile_cons, ha, hrec.1, hrec.2]

/-- All characters of a string are Python whitespace. -/
def AllWs (l : List Char) : Prop := ∀ c ∈ l, pyWs c = true

instance (l : List Char) : Decidable (AllWs l) :=
  List.decidableBAll (fun c => pyWs c = true) l

theorem allWs_takeWhile (l : List Char) : AllWs (l.takeWhile pyWs) :=
  fun _ hc => List.mem_takeWhile_imp hc

theorem head_dropWhile_ws (l : List Char) :
    ∀ c t, l.dropWhile pyWs = c :: t → pyWs c = false := by
  intro c t h
  have hx := List.head?_dropWhile_not pyWs l
  rw [h] at hx
  simpa using hx

/-! ### Properties of the fueled `str.replace` -/

theorem strRepGo_nil (pat rep : List Char) : ∀ f, strRepGo pat rep f [] = [] := by
  intro f
  cases f <;> rfl

theorem strRepGo_self (p : List Char) (hp : p ≠ []) :
    ∀ f s, s.length ≤ f → strRepGo p p f s = s := by
  intro f
  induction f with
  | zero => intro s _; rfl
  | succ f ih =>
    intro s hs
    cases s with
    | nil => rfl
    | cons c t =>
      by_cases h : p.isPrefixOf (c :: t) = true
      · obtain ⟨r, hr⟩ := List.isPrefixOf_iff_prefix.mp h
        have h2 : 1 ≤ p.length := by
          cases p with
          | nil => exact absurd rfl hp
          | cons _ _ => simp
        have hlen : r.length ≤ f := by
          have h1 : p.length + r.length = (c :: t).length := by rw [← hr]; simp
          simp only [List.length_cons] at h1 hs
          omega
        calc strRepGo p p (f + 1) (c :: t)
            = p ++ strRepGo p p f ((c :: t).drop p.length) := by
              simp [strRepGo, h]
          _ = p ++ strRepGo p p f r := by rw [← hr, List.drop_left]
          _ = p ++ r := by rw [ih r hlen]
          _ = c :: t := hr
      · have h' : p.isPrefixOf (c :: t) = false := Bool.eq_false_iff.mpr h
        have hlen : t.length ≤ f := by
          simp only [List.length_cons] at hs
          omega
        simp [strRepGo, h', ih t hlen]

/-- Python `s.replace(p, p)` is the identity for a nonempty pattern. -/
theorem strReplace_self (p : List Char) (hp : p ≠ []) (s : List Char) :
    strReplace s p p = s :=
  strRepGo_self p hp s.length s (le_refl _)

theorem strRepGo_no_occ (pat rep : List Char) :
    ∀ (pre : List Char) (f : Nat) (s : List Char), pre.length ≤ f →
      (∀ i, i < pre.length → ¬ pat <+: (pre.drop i ++ s)) →
      strRepGo pat rep f (pre ++ s) = pre ++ strRepGo pat rep (f - pre.length) s := by
  intro pre
  induction pre with
  | nil =>
    intro f s _ _
    simp
  | cons a pr ih =>
    intro f s hf hno
    cases f with
    | zero => simp at hf
    | succ f =>
      have h0 : ¬ pat <+: (a :: (pr ++ s)) := by
        have := hno 0 (by simp)
        simpa using this
      have hb : pat.isPrefixOf (a :: (pr ++ s)) = false :=
        Bool.eq_false_iff.mpr fun hh => h0 (List.isPrefixOf_iff_prefix.mp hh)
      have hstep : ∀ i, i < pr.length → ¬ pat <+: (pr.drop i ++ s) := by
        intro i hi
        have := hno (i + 1) (by simp only [List.length_cons]; omega)
        simpa using this
      have hf' : pr.length ≤ f := by
        simp only [List.length_cons] at hf
        omega
      calc strRepGo pat rep (f + 1) ((a :: pr) ++ s)
          = a :: strRepGo pat rep f (pr ++ s) := by
            simp [strRepGo, hb]
        _ = a :: (pr ++ strRepGo pat rep (f - pr.length) s) := by
            rw [ih f s hf' hstep]
        _ = (a :: pr) ++ strRepGo pat rep (f + 1 - (a :: pr).length) s := by
          simp [Nat.succ_sub_succ]

/-! ### The value of the declaration rewriter -/

/-- The fixed text after ` = async (` in the declaration. -/
def declTail2 : List Char := "req: RequestWithTraceContext, res: Response) => \x7b".toList

theorem declTail_eq : declTail = asyncLit ++ declTail2 := by decide

theorem no_async_in_word (n s : List Char) (hw : ∀ c ∈ n, isWordC c = true) :
    ∀ i, i < n.length → ¬ asyncLit <+: (n.drop i ++ s) := by
  intro i hi hpre
  have hdrop : n.drop i = n[i] :: n.drop (i + 1) := List.drop_eq_getElem_cons hi
  have hword := hw n[i] (List.getElem_mem hi)
  rw [hdrop] at hpre
  have ha : asyncLit = ' ' :: '=' :: " async (".toList := by decide
  rw [ha, List.cons_append, List.cons_prefix_cons] at hpre
  have : isWordC ' ' = true := by rw [hpre.1]; exact hword
  exact absurd this (by decide)

theorem no_async_in_exp (n s : List Char) (hne : n ≠ []) (hw : ∀ c ∈ n, isWordC c = true) :
    ∀ i, i < expLit.length → ¬ asyncLit <+: (expLit.drop i ++ (n ++ s)) := by
  intro i hi hpre
  have hexplen : expLit.length = 13 := by decide
  by_cases h12 : i < 12
  · have hlen : 2 ≤ (expLit.drop i).length := by
      simp only [List.length_drop, hexplen]
      omega
    have htake : (expLit.drop i ++ (n ++ s)).take 2 = (expLit.drop i).take 2 := by
      rw [List.take_append_eq_append_take]
      have hz : (2 : Nat) - (expLit.drop i).length = 0 := by omega
      rw [hz, List.take_zero, List.append_nil]
    obtain ⟨z, hz⟩ := hpre
    have h2 : (expLit.drop i ++ (n ++ s)).take 2 = [' ', '='] := by
      rw [← hz, List.take_append_eq_append_take]
      have h10 : asyncLit.length = 10 := by decide
      have ht2 : asyncLit.take 2 = [' ', '='] := by decide
      simp [h10, ht2]
    have hfin : (expLit.drop i).take 2 = [' ', '='] := by rw [← htake, h2]
    have hall : ∀ j, j < 12 → (expLit.drop j).take 2 ≠ [' ', '='] := by decide
    exact hall i h12 hfin
  · have hi12 : i = 12 := by omega
    subst hi12
    have hd : expLit.drop 12 = [' '] := by decide
    rw [hd] at hpre
    have ha : asyncLit = ' ' :: '=' :: " async (".toList := by decide
    rw [ha] at hpre
    cases n with
    | nil => exact hne rfl
    | cons c n' =>
      rw [List.singleton_append, List.cons_append, List.cons_prefix_cons] at hpre
      obtain ⟨-, hpre⟩ := hpre
      rw [List.cons_prefix_cons] at hpre
      obtain ⟨h2, -⟩ := hpre
      have hcw := hw c (by simp)
      rw [← h2] at hcw
      exact absurd hcw (by decide)

theorem no_async_in_tail2 :
    ∀ i, i < declTail2.length → ¬ asyncLit <+: (declTail2.drop i ++ ([] : List Char)) := by
  decide

/-- The computed value of `mkNewDecl` on the text of capture group 1: the
`export const `, the name, and the parameter list survive character for
character, and only ` = async (` becomes ` = asyncHandler(async (`. -/
theorem mkNewDecl_val (n : List Char) (hne : n ≠ []) (hw : ∀ c ∈ n, isWordC c = true) :
    mkNewDecl (declOf n) = expLit ++ n ++ (asyncHandlerLit ++ declTail2) := by
  have hexp : exportLit ≠ [] := by decide
  have hself : strReplace (declOf n) exportLit exportLit = declOf n :=
    strReplace_self exportLit hexp (declOf n)
  have hshape : declOf n = expLit ++ (n ++ (asyncLit ++ declTail2)) := by
    simp [declOf, declTail_eq]
  rw [mkNewDecl, hself, strReplace, hshape]
  have hlen : (expLit ++ (n ++ (asyncLit ++ declTail2))).length = 13 + n.length + 59 := by
    have h1 : expLit.length = 13 := by decide
    have h2 : asyncLit.length = 10 := by decide
    have h3 : declTail2.length = 49 := by decide
    simp only [List.length_append, h1, h2, h3]
    omega
  rw [hlen]
  have hexplen : expLit.length = 13 := by decide
  rw [strRepGo_no_occ asyncLit asyncHandlerLit expLit (13 + n.length + 59)
        (n ++ (asyncLit ++ declTail2)) (by omega)
        (fun i hi => no_async_in_exp n (asyncLit ++ declTail2) hne hw i hi)]
  rw [hexplen]
  have harith1 : 13 + n.length + 59 - 13 = n.length + 59 := by omega
  rw [harith1]
  rw [strRepGo_no_occ asyncLit asyncHandlerLit n (n.length + 59) (asyncLit ++ declTail2)
        (by omega) (fun i hi => no_async_in_word n (asyncLit ++ declTail2) hw i hi)]
  have harith2 : n.length + 59 - n.length = 59 := by omega
  rw [harith2]
  have hstep : strRepGo asyncLit asyncHandlerLit 59 (asyncLit ++ declTail2)
      = asyncHandlerLit ++ strRepGo asyncLit asyncHandlerLit 58 declTail2 := by
    have hd : (asyncLit ++ declTail2).drop asyncLit.length = declTail2 :=
      List.drop_left _ _
    have hb : asyncLit.isPrefixOf (asyncLit ++ declTail2) = true :=
      List.isPrefixOf_iff_prefix.mpr (List.prefix_append asyncLit declTail2)
    cases hcc : asyncLit ++ declTail2 with
    | nil => exact absurd hcc (by decide)
    | cons c cs =>
      rw [hcc] at hb hd
      show strRepGo asyncLit asyncHandlerLit (58 + 1) (c :: cs) = _
      rw [strRepGo]
      simp only [hb, if_true]
      rw [hd]
  rw [hstep]
  have hid : strRepGo asyncLit asyncHandlerLit 58 declTail2 = declTail2 := by
    have := strRepGo_no_occ asyncLit asyncHandlerLit declTail2 58 []
      (by decide) no_async_in_tail2
    simpa [strRepGo_nil] using this
  rw [hid]
  simp

/-! ### Claim theorems: C7, C8, C3, C4 -/

/-- C7: for every matched handler, the declaration rewriter preserves the
handler-name token and the parameter-list text exactly, character for
character, and changes only the assignment tokens: the original group-1 text
is `export const ` ++ name ++ ` = async (` ++ params, and the rewritten text
is `export const ` ++ name ++ ` = asyncHandler(async (` ++ params, with the
same name and the same parameter-list text `params`. -/
theorem C7_decl_rewriter (n : List Char) (hne : n ≠ []) (hw : ∀ c ∈ n, isWordC c = true) :
    declOf n = expLit ++ n ++ (asyncLit ++ declTail2) ∧
    mkNewDecl (declOf n) = expLit ++ n ++ (asyncHandlerLit ++ declTail2) := by
  constructor
  · simp [declOf, declTail_eq]
  · exact mkNewDecl_val n hne hw

/-- Witness for C7 at the concrete handler name `getUser`. -/
theorem C7_decl_rewriter_w :
    declOf "getUser".toList = expLit ++ "getUser".toList ++ (asyncLit ++ declTail2) ∧
    mkNewDecl (declOf "getUser".toList)
      = expLit ++ "getUser".toList ++ (asyncHandlerLit ++ declTail2) :=
  C7_decl_rewriter "getUser".toList (by decide) (by decide)

/-- C8: invoked with no path argument, the tool prints the usage message to
standard output, exits with the non-zero status 1, reads no file and writes
no file, and its outcome does not depend on the filesystem at all (so the
core transform is never invoked). -/
theorem C8_missing_arg (argv : List (List Char)) (fs fs' : List Char → List Char)
    (h : argv.length ≤ 1) :
    cliMain argv fs = ⟨[usageMsg], 1, none, none⟩ ∧ cliMain argv fs = cliMain argv fs' := by
  have hget : argv[1]? = none := List.getElem?_eq_none h
  constructor <;> simp [cliMain, hget]

/-- Witness for C8: a one-element argument vector (just the program name). -/
theorem C8_missing_arg_w :
    cliMain [['p']] (fun _ => []) = ⟨[usageMsg], 1, none, none⟩ ∧
    cliMain [['p']] (fun _ => []) = cliMain [['p']] (fun _ => ['x']) :=
  C8_missing_arg [['p']] (fun _ => []) (fun _ => ['x']) (by decide)

/-- C3: per-line de-indentation of the body rewriter.  A line starting with
at least four spaces loses exactly its first four characters and keeps the
rest unchanged; a line not starting with four spaces (fewer spaces, or a tab
or other non-space leading character) is passed through unmodified; and the
body as a whole is trailing-whitespace-trimmed afterwards: the de-indented
body equals its `rstrip` followed by pure whitespace, and the `rstrip`-ed
part ends in a non-whitespace character when nonempty. -/
theorem C3_body_rewriter :
    (∀ t, cleanLine (sp4 ++ t) = t)
    ∧ (∀ l, ¬ sp4 <+: l → cleanLine l = l)
    ∧ (∀ b, ∃ w, AllWs w ∧ cleanJoin b = rstrip (cleanJoin b) ++ w
          ∧ ∀ c, (rstrip (cleanJoin b)).getLast? = some c → pyWs c = false) := by
  refine ⟨?_, ?_, ?_⟩
  · intro t
    have hp : sp4.isPrefixOf (sp4 ++ t) = true :=
      List.isPrefixOf_iff_prefix.mpr (List.prefix_append sp4 t)
    have h4 : sp4.length = 4 := by decide
    simp only [cleanLine, hp, if_true]
    rw [← h4, List.drop_left]
  · intro l hl
    have hp : sp4.isPrefixOf l = false :=
      Bool.eq_false_iff.mpr fun hh => hl (List.isPrefixOf_iff_prefix.mp hh)
    simp [cleanLine, hp]
  · intro b
    set x := cleanJoin b with hx
    refine ⟨(x.reverse.takeWhile pyWs).reverse, ?_, ?_, ?_⟩
    · intro c hc
      rw [List.mem_reverse] at hc
      exact List.mem_takeWhile_imp hc
    · rw [rstrip, ← List.reverse_append, List.takeWhile_append_dropWhile,
        List.reverse_reverse]
    · intro c hc
      rw [rstrip, List.getLast?_reverse] at hc
      cases hdw : x.reverse.dropWhile pyWs with
      | nil => rw [hdw] at hc; simp at hc
      | cons d t =>
        rw [hdw] at hc
        simp only [List.head?_cons, Option.some.injEq] at hc
        rw [← hc]
        exact head_dropWhile_ws x.reverse d t hdw

/-- Witness for C3: concrete lines with four, two, and tab indentation. -/
theorem C3_body_rewriter_w :
    cleanLine (sp4 ++ "x;".toList) = "x;".toList
    ∧ cleanLine "  y;".toList = "  y;".toList
    ∧ cleanLine "\tz;".toList = "\tz;".toList :=
  ⟨C3_body_rewriter.1 "x;".toList,
   C3_body_rewriter.2.1 "  y;".toList (by decide),
   C3_body_rewriter.2.1 "\tz;".toList (by decide)⟩

/-- Core of C4: a document in which the scan finds no match anywhere passes
through the fueled substitution unchanged, for every fuel value. -/
theorem subFuel_id (f : Nat) : ∀ s, hasMatch s = false → subFuel f s = s := by
  induction f with
  | zero => intro s _; rfl
  | succ f ih =>
    intro s hs
    cases s with
    | nil => rfl
    | cons c t =>
      rw [hasMatch] at hs
      simp only [Bool.or_eq_false_iff] at hs
      have hm : matchAt (c :: t) = none := Option.not_isSome_iff_eq_none.mp (by
        rw [hs.1]; exact Bool.false_ne_true)
      rw [subFuel, hm, ih t hs.2]

/-- C4: for every input document with zero matches of the handler pattern,
`refactor_controller` returns the input exactly (zero matches is not an
error; the document passes through unchanged). -/
theorem C4_no_match_id (s : List Char) (h : hasMatch s = false) :
    refactor_controller s = s :=
  subFuel_id s.length s h

/-- Witness for C4 on a concrete non-matching document. -/
theorem C4_no_match_id_w :
    refactor_controller "function foo() \x7b return 1; \x7d".toList
      = "function foo() \x7b return 1; \x7d".toList :=
  C4_no_match_id "function foo() \x7b return 1; \x7d".toList (by decide)

/-! ### Characterization of the matcher components -/

theorem parseDecl_iff (s n r : List Char) :
    parseDecl s = some (n, r) ↔
      s = expLit ++ (n ++ (declTail ++ r)) ∧ n ≠ [] ∧ ∀ c ∈ n, isWordC c = true := by
  constructor
  · intro h
    cases hd : dropLit expLit s with
    | none => simp [parseDecl, hd] at h
    | some t =>
      simp only [parseDecl, hd] at h
      have hs : s = expLit ++ t := (dropLit_iff _ _ _).mp hd
      by_cases hni : (t.takeWhile isWordC).isEmpty
      · simp [hni] at h
      · rw [if_neg hni] at h
        cases hd2 : dropLit declTail (t.dropWhile isWordC) with
        | none => simp [hd2] at h
        | some r' =>
          rw [hd2] at h
          simp only [Option.some.injEq, Prod.mk.injEq] at h
          obtain ⟨hn, hr⟩ := h
          have hdw : t.dropWhile isWordC = declTail ++ r' := (dropLit_iff _ _ _).mp hd2
          refine ⟨?_, ?_, ?_⟩
          · rw [hs, ← hn, ← hr]
            congr 1
            conv_lhs => rw [← List.takeWhile_append_dropWhile isWordC t]
            rw [hdw]
          · rw [← hn]
            intro hh
            rw [hh] at hni
            exact hni rfl
          · rw [← hn]
            exact fun c hc => List.mem_takeWhile_imp hc
  · rintro ⟨hs, hne, hw⟩
    have hhead : ∀ c t', declTail ++ r = c :: t' → isWordC c = false := by
      intro c t' hct
      have hdt : declTail = ' ' :: declTail.tail := by decide
      rw [hdt, List.cons_append] at hct
      cases hct
      decide
    have hta := takeWhile_append_of isWordC n (declTail ++ r) hw hhead
    have hni : n.isEmpty = false := by
      cases n with
      | nil => exact absurd rfl hne
      | cons a l => rfl
    rw [hs]
    simp only [parseDecl, dropLit_self, hta.1, hta.2, hni, Bool.false_eq_true, if_false,
      dropLit_self]

theorem parseTrace_none (s : List Char) (h : ¬ traceLit <+: s) : parseTrace s = ([], s) := by
  cases hd : dropLit traceLit s with
  | none => simp [parseTrace, hd]
  | some t => exact absurd ⟨t, ((dropLit_iff _ _ _).mp hd).symm⟩ h

theorem parseTrace_some (t : List Char) :
    parseTrace (traceLit ++ t) = (traceLit ++ t.takeWhile pyWs, t.dropWhile pyWs) := by
  simp [parseTrace, dropLit_self]

/-- The two shapes of the optional part of the catch-clause head: either the
bare `) {` or `:` followed by whitespace and `any) {`. -/
def MidOk (m : List Char) : Prop :=
  m = parenLit ∨ ∃ w, AllWs w ∧ m = ':' :: (w ++ anyLit)

/-- The two shapes of the group-2 capture: absent, or the exact trace literal
followed by the captured whitespace run. -/
def TraceOk (tr : List Char) : Prop :=
  tr = [] ∨ ∃ w, AllWs w ∧ tr = traceLit ++ w

theorem catchHead_iff (s u : List Char) :
    catchHead s = some u ↔ ∃ m, MidOk m ∧ s = catchLit ++ (m ++ u) := by
  constructor
  · intro h
    cases hd : dropLit catchLit s with
    | none => simp [catchHead, hd] at h
    | some t =>
      simp only [catchHead, hd] at h
      have hs : s = catchLit ++ t := (dropLit_iff _ _ _).mp hd
      by_cases h1 : t.take 1 = [')']
      · rw [if_pos h1] at h
        have ht : t = parenLit ++ u := (dropLit_iff _ _ _).mp h
        exact ⟨parenLit, Or.inl rfl, by rw [hs, ht]⟩
      · rw [if_neg h1] at h
        by_cases h2 : t.take 1 = [':']
        · rw [if_pos h2] at h
          have hts : t = ':' :: t.drop 1 := by
            conv_lhs => rw [← List.take_append_drop 1 t]
            rw [h2]
            rfl
          have hdw : (t.drop 1).dropWhile pyWs = anyLit ++ u := (dropLit_iff _ _ _).mp h
          have hsplit : t.drop 1 = (t.drop 1).takeWhile pyWs ++ (anyLit ++ u) := by
            conv_lhs => rw [← List.takeWhile_append_dropWhile pyWs (t.drop 1)]
            rw [hdw]
          refine ⟨':' :: ((t.drop 1).takeWhile pyWs ++ anyLit),
            Or.inr ⟨(t.drop 1).takeWhile pyWs, allWs_takeWhile _, rfl⟩, ?_⟩
          rw [hs]
          congr 1
          conv_lhs => rw [hts, hsplit]
          simp [List.append_assoc]
        · rw [if_neg h2] at h
          exact absurd h (by simp)
  · rintro ⟨m, hm, rfl⟩
    cases hm with
    | inl hp =>
      subst hp
      have hpl : parenLit ++ u = ')' :: (" \x7b".toList ++ u) := by
        have hq : parenLit = ')' :: " \x7b".toList := by decide
        rw [hq, List.cons_append]
      simp only [catchHead, dropLit_self]
      rw [if_pos (by simp [hpl] : List.take 1 (parenLit ++ u) = [')'])]
    | inr hp =>
      obtain ⟨w, hw, rfl⟩ := hp
      have hsh : (':' :: (w ++ anyLit)) ++ u = ':' :: (w ++ (anyLit ++ u)) := by
        simp [List.append_assoc]
      have hha : ∀ c t', anyLit ++ u = c :: t' → pyWs c = false := by
        intro c t' hct
        have hal : anyLit = 'a' :: anyLit.tail := by decide
        rw [hal, List.cons_append] at hct
        cases hct
        decide
      have hta := takeWhile_append_of pyWs w (anyLit ++ u) hw hha
      simp only [catchHead, hsh, dropLit_self]
      rw [if_neg (by simp : ¬ List.take 1 (':' :: (w ++ (anyLit ++ u))) = [')'])]
      rw [if_pos (by simp : List.take 1 (':' :: (w ++ (anyLit ++ u))) = [':'])]
      simp only [List.drop_succ_cons, List.drop_zero, hta.2, dropLit_self]

theorem closeTry_iff (s u : List Char) :
    closeTry s = some u ↔ ∃ w, AllWs w ∧ s = '\x7d' :: (w ++ (closeLit ++ u)) := by
  constructor
  · intro h
    by_cases h1 : s.take 1 = ['\x7d']
    · rw [closeTry, if_pos h1] at h
      have hs : s = '\x7d' :: s.drop 1 := by
        conv_lhs => rw [← List.take_append_drop 1 s]
        rw [h1]
        rfl
      have hd := (dropLit_iff _ _ _).mp h
      refine ⟨(s.drop 1).takeWhile pyWs, allWs_takeWhile _, ?_⟩
      conv_lhs => rw [hs]
      congr 1
      conv_lhs => rw [← List.takeWhile_append_dropWhile pyWs (s.drop 1)]
      rw [hd]
    · rw [closeTry, if_neg h1] at h
      exact absurd h (by simp)
  · rintro ⟨w, hw, rfl⟩
    have hha : ∀ c t', closeLit ++ u = c :: t' → pyWs c = false := by
      intro c t' hct
      have hcl : closeLit = '\x7d' :: closeLit.tail := by decide
      rw [hcl, List.cons_append] at hct
      cases hct
      decide
    have hta := takeWhile_append_of pyWs w (closeLit ++ u) hw hha
    rw [closeTry, if_pos (by simp)]
    simp only [List.drop_succ_cons, List.drop_zero, hta.2, dropLit_self]

theorem findClose_spec : ∀ s u, findClose s = some u →
    ∃ a w, AllWs w ∧ s = a ++ ('\x7d' :: (w ++ (closeLit ++ u))) := by
  intro s
  induction s with
  | nil => intro u h; simp [findClose] at h
  | cons c t ih =>
    intro u h
    rw [findClose] at h
    cases hct : closeTry (c :: t) with
    | some v =>
      rw [hct] at h
      simp only [Option.some.injEq] at h
      subst h
      obtain ⟨w, hw, hs⟩ := (closeTry_iff _ _).mp hct
      exact ⟨[], w, hw, by rw [← hs]; rfl⟩
    | none =>
      rw [hct] at h
      obtain ⟨a, w, hw, ha⟩ := ih u h
      exact ⟨c :: a, w, hw, by rw [List.cons_append, ha]⟩

theorem findClose_isSome_of : ∀ a s, (findClose s).isSome → (findClose (a ++ s)).isSome := by
  intro a
  induction a with
  | nil => intro s h; simpa using h
  | cons c a' ih =>
    intro s h
    rw [List.cons_append, findClose]
    cases hct : closeTry (c :: (a' ++ s)) with
    | some v => rfl
    | none => exact ih s h

theorem findCatch_spec : ∀ t b r, findCatch t = some (b, r) →
    ∃ u v, t = b ++ u ∧ catchHead u = some v ∧ findClose v = some r := by
  intro t
  induction t with
  | nil => intro b r h; simp [findCatch] at h
  | cons c t' ih =>
    intro b r h
    rw [findCatch] at h
    split at h
    next u0 hch =>
      split at h
      next v hfc =>
        simp only [Option.some.injEq, Prod.mk.injEq] at h
        obtain ⟨hb, hr⟩ := h
        subst hb
        subst hr
        exact ⟨c :: t', u0, rfl, hch, hfc⟩
      next hfc =>
        cases hrec : findCatch t' with
        | none => rw [hrec] at h; simp at h
        | some p =>
          obtain ⟨b', r'⟩ := p
          rw [hrec] at h
          simp only [Option.map_some', Option.some.injEq, Prod.mk.injEq] at h
          obtain ⟨hb, hr⟩ := h
          obtain ⟨u, v, hteq, hch', hfc'⟩ := ih b' r' hrec
          subst hb
          subst hr
          exact ⟨u, v, by rw [List.cons_append, hteq], hch', hfc'⟩
    next hch =>
      cases hrec : findCatch t' with
      | none => rw [hrec] at h; simp at h
      | some p =>
        obtain ⟨b', r'⟩ := p
        rw [hrec] at h
        simp only [Option.map_some', Option.some.injEq, Prod.mk.injEq] at h
        obtain ⟨hb, hr⟩ := h
        obtain ⟨u, v, hteq, hch', hfc'⟩ := ih b' r' hrec
        subst hb
        subst hr
        exact ⟨u, v, by rw [List.cons_append, hteq], hch', hfc'⟩

theorem findCatch_skip : ∀ t b r, findCatch t = some (b, r) →
    ∀ i, i < b.length → ∀ u, catchHead (t.drop i) = some u → findClose u = none := by
  intro t
  induction t with
  | nil => intro b r h; simp [findCatch] at h
  | cons c t' ih =>
    intro b r h i hi u hu
    rw [findCatch] at h
    split at h
    next u0 hch =>
      split at h
      next v hfc =>
        simp only [Option.some.injEq, Prod.mk.injEq] at h
        rw [← h.1] at hi
        simp at hi
      next hfc =>
        cases hrec : findCatch t' with
        | none => rw [hrec] at h; simp at h
        | some p =>
          obtain ⟨b', r'⟩ := p
          rw [hrec] at h
          simp only [Option.map_some', Option.some.injEq, Prod.mk.injEq] at h
          obtain ⟨hb, hr⟩ := h
          subst hr
          cases i with
          | zero =>
            rw [List.drop_zero] at hu
            rw [hch] at hu
            cases hu
            exact hfc
          | succ i' =>
            rw [List.drop_succ_cons] at hu
            have hi' : i' < b'.length := by
              rw [← hb] at hi
              simpa using Nat.lt_of_succ_lt_succ hi
            exact ih b' r' hrec i' hi' u hu
    next hch =>
      cases hrec : findCatch t' with
      | none => rw [hrec] at h; simp at h
      | some p =>
        obtain ⟨b', r'⟩ := p
        rw [hrec] at h
        simp only [Option.map_some', Option.some.injEq, Prod.mk.injEq] at h
        obtain ⟨hb, hr⟩ := h
        subst hr
        cases i with
        | zero =>
          rw [List.drop_zero] at hu
          rw [hch] at hu
          exact absurd hu (by simp)
        | succ i' =>
          rw [List.drop_succ_cons] at hu
          have hi' : i' < b'.length := by
            rw [← hb] at hi
            simpa using Nat.lt_of_succ_lt_succ hi
          exact ih b' r' hrec i' hi' u hu


theorem midOk_no_rbrace (m : List Char) (hm : MidOk m) : '\x7d' ∉ m := by
  cases hm with
  | inl h => rw [h]; decide
  | inr h =>
    obtain ⟨w, hw, rfl⟩ := h
    intro hmem
    simp only [List.mem_cons, List.mem_append] at hmem
    rcases hmem with h1 | h2 | h3
    · exact absurd h1 (by decide)
    · exact absurd (hw _ h2) (by decide)
    · exact absurd h3 (by decide)

/-- Strengthening of `findCatch_skip`: no suffix of the body starts a catch
head at all.  An earlier textual catch-head occurrence inside the body would
always have a close available (the close of the found one lies after it,
because two catch heads cannot overlap: a head contains no second `}`), so
the engine would have stopped there. -/
theorem findCatch_noHead (t b r : List Char) (h : findCatch t = some (b, r)) :
    ∀ i, i < b.length → catchHead (t.drop i) = none := by
  intro i hi
  cases hu : catchHead (t.drop i) with
  | none => rfl
  | some ui =>
    exfalso
    obtain ⟨u, v, ht, hch, hfc⟩ := findCatch_spec t b r h
    have hskip := findCatch_skip t b r h i hi ui hu
    obtain ⟨mi, hmi, hdi⟩ := (catchHead_iff _ _).mp hu
    obtain ⟨m, hm, hdL⟩ := (catchHead_iff _ _).mp hch
    have hdropb : t.drop b.length = u := by rw [ht, List.drop_left]
    have hk : (t.drop i).drop (b.length - i) = catchLit ++ (m ++ v) := by
      rw [List.drop_drop]
      have harith : i + (b.length - i) = b.length := by omega
      rw [harith, hdropb, hdL]
    rw [hdi] at hk
    have hassoc : catchLit ++ (mi ++ ui) = (catchLit ++ mi) ++ ui := by
      rw [List.append_assoc]
    rw [hassoc, List.drop_append_eq_append_drop] at hk
    by_cases hcase : b.length - i < (catchLit ++ mi).length
    · have hz : b.length - i - (catchLit ++ mi).length = 0 := by omega
      rw [hz, List.drop_zero] at hk
      have hne : (catchLit ++ mi).drop (b.length - i) ≠ [] := by
        apply List.ne_nil_of_length_pos
        rw [List.length_drop]
        omega
      obtain ⟨d, ds, hds⟩ := List.exists_cons_of_ne_nil hne
      rw [hds, List.cons_append] at hk
      have hcl : catchLit = '\x7d' :: catchLit.tail := by decide
      rw [hcl, List.cons_append] at hk
      have hdval : d = '\x7d' := by
        injection hk with h1 _
      have hipos : 0 < b.length - i := by omega
      have hdmem : d ∈ (catchLit ++ mi).drop (b.length - i) := by
        rw [hds]
        simp
      have hsub : (catchLit ++ mi).drop (b.length - i) <:+ (catchLit ++ mi).drop 1 :=
        List.drop_suffix_drop_left _ hipos
      have hdmem1 : d ∈ (catchLit ++ mi).drop 1 := hsub.subset hdmem
      have hd1 : (catchLit ++ mi).drop 1 = catchLit.tail ++ mi := by
        conv_lhs => rw [hcl, List.cons_append]
        rw [List.drop_succ_cons, List.drop_zero]
      rw [hd1, hdval] at hdmem1
      rcases List.mem_append.mp hdmem1 with hA | hB
      · exact absurd hA (by decide)
      · exact midOk_no_rbrace mi hmi hB
    · have hz : (catchLit ++ mi).drop (b.length - i) = [] :=
        List.drop_eq_nil_of_le (by omega)
      rw [hz, List.nil_append] at hk
      have hui : ui = (ui.take (b.length - i - (catchLit ++ mi).length)
          ++ (catchLit ++ m)) ++ v := by
        conv_lhs => rw [← List.take_append_drop (b.length - i - (catchLit ++ mi).length) ui]
        rw [hk]
        simp [List.append_assoc]
      have hv : (findClose v).isSome = true := by rw [hfc]; rfl
      have : (findClose ui).isSome = true := by
        rw [hui]
        exact findClose_isSome_of _ v hv
      rw [hskip] at this
      exact absurd this (by simp)

/-- Full reconstruction of a successful match: the matched document prefix
is the exact declaration literal with a nonempty word-character name,
whitespace, a group-2 capture of one of its two legal shapes, the `try {`
literal, and a suffix on which the body search succeeded. -/
theorem matchAt_elim (s : List Char) (r : MRec) (h : matchAt s = some r) :
    ∃ ws t, AllWs ws ∧
      s = expLit ++ (r.name ++ (declTail ++ (ws ++ (r.trace ++ (tryLit ++ t))))) ∧
      r.name ≠ [] ∧ (∀ c ∈ r.name, isWordC c = true) ∧
      TraceOk r.trace ∧ findCatch t = some (r.body, r.rest) := by
  rw [matchAt] at h
  split at h
  · exact absurd h (by simp)
  next n t1 hpd =>
    obtain ⟨hs, hne, hw⟩ := (parseDecl_iff s n t1).mp hpd
    split at h
    next tr t3 htr =>
      split at h
      · exact absurd h (by simp)
      next t4 htry =>
        split at h
        · exact absurd h (by simp)
        next b rst hfc =>
          obtain ⟨hn1, hn2, hn3, hn4⟩ :
              r.name = n ∧ r.trace = tr ∧ r.body = b ∧ r.rest = rst := by
            injection h with h2
            rw [← h2]
            exact ⟨rfl, rfl, rfl, rfl⟩
          have ht3 : t3 = tryLit ++ t4 := (dropLit_iff _ _ _).mp htry
          cases hdt : dropLit traceLit (t1.dropWhile pyWs) with
          | none =>
            have hpt : parseTrace (t1.dropWhile pyWs) = ([], t1.dropWhile pyWs) := by
              simp [parseTrace, hdt]
            rw [hpt] at htr
            injection htr with htr1 htr2
            refine ⟨t1.takeWhile pyWs, t4, allWs_takeWhile _, ?_, ?_, ?_, ?_, ?_⟩
            · have ht1 : t1 = t1.takeWhile pyWs ++ (tryLit ++ t4) := by
                conv_lhs => rw [← List.takeWhile_append_dropWhile pyWs t1]
                rw [htr2, ht3]
              rw [hn1, hn2, ← htr1, hs]
              simp only [List.nil_append]
              rw [← ht1]
            · rw [hn1]; exact hne
            · rw [hn1]; exact hw
            · rw [hn2, ← htr1]
              exact Or.inl rfl
            · rw [hn3, hn4]
              exact hfc
          | some t' =>
            have hpt : parseTrace (t1.dropWhile pyWs)
                = (traceLit ++ t'.takeWhile pyWs, t'.dropWhile pyWs) := by
              simp [parseTrace, hdt]
            rw [hpt] at htr
            injection htr with htr1 htr2
            have hdw : t1.dropWhile pyWs = traceLit ++ t' := (dropLit_iff _ _ _).mp hdt
            refine ⟨t1.takeWhile pyWs, t4, allWs_takeWhile _, ?_, ?_, ?_, ?_, ?_⟩
            · have ht1 : t1 = t1.takeWhile pyWs
                  ++ (traceLit ++ (t'.takeWhile pyWs ++ (tryLit ++ t4))) := by
                conv_lhs => rw [← List.takeWhile_append_dropWhile pyWs t1]
                rw [hdw]
                congr 1
                conv_lhs => rw [← List.takeWhile_append_dropWhile pyWs t']
                rw [htr2, ht3]
              rw [hn1, hn2, ← htr1, hs]
              simp only [List.append_assoc]
              rw [← ht1]
            · rw [hn1]; exact hne
            · rw [hn1]; exact hw
            · rw [hn2, ← htr1]
              exact Or.inr ⟨t'.takeWhile pyWs, allWs_takeWhile _, rfl⟩
            · rw [hn3, hn4]
              exact hfc

/-! ### Claim theorems: C9, C10, C2 -/

/-- A failed declaration parse at a position makes the whole match fail
there: the pattern begins with the declaration literal (line 8). -/
theorem matchAt_none_of_parseDecl_none (s : List Char)
    (hp : parseDecl s = none) : matchAt s = none := by
  rw [matchAt, hp]

/-- If the pattern matches at no suffix of the document, the scan finds no
match anywhere. -/
theorem hasMatch_false_of_tails (s : List Char)
    (h : ∀ z ∈ s.tails, matchAt z = none) : hasMatch s = false := by
  induction s with
  | nil =>
    rw [hasMatch, h [] ((List.mem_tails [] []).mpr (List.suffix_refl _))]
    rfl
  | cons c t ih =>
    rw [hasMatch, h (c :: t) ((List.mem_tails _ _).mpr (List.suffix_refl _))]
    simp only [Option.isSome_none, Bool.false_or]
    exact ih fun z hz => h z ((List.mem_tails z (c :: t)).mpr
      (((List.mem_tails z t).mp hz).trans (List.suffix_cons c t)))

/-- A document in which the pattern matches at no position passes through
the scan byte for byte. -/
theorem refactor_id_of_tails (s : List Char)
    (h : ∀ z ∈ s.tails, matchAt z = none) : refactor_controller s = s :=
  subFuel_id s.length s (hasMatch_false_of_tails s h)

/-- C9: the matcher recognizes a declaration only when it reads, character
for character, `export const ` ++ name ++ ` = async (req:
RequestWithTraceContext, res: Response) => {` with a nonempty word-character
name: the declaration parse succeeds exactly on texts of this shape (first
conjunct, an if-and-only-if, so any document position whose text deviates in
any character is never declaration-matched), every full match starts with
this exact literal shape (second conjunct), a failed declaration parse makes
the whole match fail at that position (third conjunct), and a document in
which the declaration parse fails at every position — in particular one
consisting of a handler whose declaration deviates from the literal in any
character — passes through to the output unchanged, byte for byte (fourth
conjunct). -/
theorem C9_exact_decl :
    (∀ s n r, parseDecl s = some (n, r) ↔
      s = expLit ++ (n ++ (declTail ++ r)) ∧ n ≠ [] ∧ ∀ c ∈ n, isWordC c = true)
    ∧ (∀ s r, matchAt s = some r → ∃ t, s = expLit ++ (r.name ++ (declTail ++ t))
        ∧ r.name ≠ [] ∧ ∀ c ∈ r.name, isWordC c = true)
    ∧ (∀ s, parseDecl s = none → matchAt s = none)
    ∧ (∀ s, (∀ z ∈ s.tails, parseDecl z = none) → refactor_controller s = s) := by
  refine ⟨parseDecl_iff, ?_, ?_, ?_⟩
  · intro s r h
    obtain ⟨ws, t, _, hs, hne, hw, _, _⟩ := matchAt_elim s r h
    exact ⟨ws ++ (r.trace ++ (tryLit ++ t)), hs, hne, hw⟩
  · intro s hp
    exact matchAt_none_of_parseDecl_none s hp
  · intro s hall
    exact refactor_id_of_tails s fun z hz =>
      matchAt_none_of_parseDecl_none z (hall z hz)

/-- Witness for C9: the parse succeeds on the exact literal shape; on a
declaration whose parameter-list text deviates (a shortened type annotation)
the match fails, and the whole deviant-handler document passes through the
transformation unchanged. -/
theorem C9_exact_decl_w :
    parseDecl (expLit ++ ("getUser".toList ++ (declTail ++ "rest".toList)))
      = some ("getUser".toList, "rest".toList)
    ∧ matchAt "export const getUser = async (req: Request, res: Response) => \x7b".toList
      = none
    ∧ refactor_controller
        "export const getUser = async (req: Request, res: Response) => \x7b".toList
      = "export const getUser = async (req: Request, res: Response) => \x7b".toList :=
  ⟨(C9_exact_decl.1 _ _ _).mpr ⟨rfl, by decide, by decide⟩,
   C9_exact_decl.2.2.1 _ (by decide),
   C9_exact_decl.2.2.2 _ (by decide)⟩

/-- A handler whose well-formed declaration is followed, after the
whitespace run, by any text that is neither the trace literal nor `try {` is
not matched at that declaration (lines 9-10). -/
theorem matchAt_deviant_none (n ws t : List Char) (hne : n ≠ [])
    (hw : ∀ c ∈ n, isWordC c = true) (hws : AllWs ws)
    (hhead : ∀ c t', t = c :: t' → pyWs c = false)
    (htl : ¬ traceLit <+: t) (htr : ¬ tryLit <+: t) :
    matchAt (expLit ++ (n ++ (declTail ++ (ws ++ t)))) = none := by
  have hpd : parseDecl (expLit ++ (n ++ (declTail ++ (ws ++ t)))) = some (n, ws ++ t) :=
    (parseDecl_iff _ _ _).mpr ⟨rfl, hne, hw⟩
  have hdw : (ws ++ t).dropWhile pyWs = t := (takeWhile_append_of pyWs ws t hws hhead).2
  have hdl : dropLit tryLit t = none := by
    cases hdlc : dropLit tryLit t with
    | none => rfl
    | some u => exact absurd ⟨u, ((dropLit_iff _ _ _).mp hdlc).symm⟩ htr
  rw [matchAt]
  split
  · rfl
  next n' t1' hpd' =>
    rw [hpd] at hpd'
    simp only [Option.some.injEq, Prod.mk.injEq] at hpd'
    obtain ⟨hn', ht1'⟩ := hpd'
    subst hn'
    subst ht1'
    split
    next tr t3 hptr =>
      rw [hdw, parseTrace_none t htl] at hptr
      injection hptr with hp1 hp2
      subst hp1
      subst hp2
      split
      · rfl
      next t4 htry' =>
        rw [hdl] at htry'
        exact absurd htry' (by simp)

/-- C10: the optional trace-extraction statement is recognized only as the
literal `const { traceId, spanId } = req;` (the trace capture of any match is
empty or that literal plus captured whitespace); a handler whose declaration
is followed, after the whitespace run, by any other text that is neither the
trace literal nor `try {` — such as a destructuring statement with different
identifiers — is not matched at all at that declaration; and when such a
deviant-handler document contains no further candidate declaration (the
declaration parse succeeds at no proper suffix), the whole document passes
through to the output unchanged, byte for byte. -/
theorem C10_exact_trace :
    (∀ s r, matchAt s = some r → r.trace = [] ∨ ∃ w, AllWs w ∧ r.trace = traceLit ++ w)
    ∧ (∀ n ws t, n ≠ [] → (∀ c ∈ n, isWordC c = true) → AllWs ws →
        (∀ c t', t = c :: t' → pyWs c = false) →
        ¬ traceLit <+: t → ¬ tryLit <+: t →
        matchAt (expLit ++ (n ++ (declTail ++ (ws ++ t)))) = none)
    ∧ (∀ n ws t, n ≠ [] → (∀ c ∈ n, isWordC c = true) → AllWs ws →
        (∀ c t', t = c :: t' → pyWs c = false) →
        ¬ traceLit <+: t → ¬ tryLit <+: t →
        (∀ z ∈ (expLit ++ (n ++ (declTail ++ (ws ++ t)))).tails,
          z = expLit ++ (n ++ (declTail ++ (ws ++ t))) ∨ parseDecl z = none) →
        refactor_controller (expLit ++ (n ++ (declTail ++ (ws ++ t))))
          = expLit ++ (n ++ (declTail ++ (ws ++ t)))) := by
  refine ⟨?_, matchAt_deviant_none, ?_⟩
  · intro s r h
    obtain ⟨_, _, _, _, _, _, hto, _⟩ := matchAt_elim s r h
    exact hto
  · intro n ws t hne hw hws hhead htl htr hall
    apply refactor_id_of_tails
    intro z hz
    rcases hall z hz with hz0 | hzp
    · rw [hz0]
      exact matchAt_deviant_none n ws t hne hw hws hhead htl htr
    · exact matchAt_none_of_parseDecl_none z hzp

/-- The §4.1 deviant-destructuring text: a statement pulling a different
identifier from the request object, followed by a well-formed try/catch. -/
def deviantTail : List Char :=
  ("const \x7b userId \x7d = req;\n  try \x7b x \x7d catch (error) \x7b y \x7d\n\x7d;").toList

/-- Witness for C10: a handler whose destructuring statement names `userId`
instead of the trace identifiers is not matched at all, and the document
consisting of that handler passes through the transformation unchanged. -/
theorem C10_exact_trace_w :
    matchAt (expLit ++ ("getUser".toList ++ (declTail ++ ("\n  ".toList ++ deviantTail))))
      = none
    ∧ refactor_controller
        (expLit ++ ("getUser".toList ++ (declTail ++ ("\n  ".toList ++ deviantTail))))
      = expLit ++ ("getUser".toList ++ (declTail ++ ("\n  ".toList ++ deviantTail))) :=
  ⟨C10_exact_trace.2.1 "getUser".toList "\n  ".toList deviantTail (by decide) (by decide)
    (by decide)
    (by
      intro c t' h
      have hd : deviantTail = 'c' :: deviantTail.tail := by decide
      rw [hd] at h
      injection h with h1 _
      rw [← h1]
      decide)
    (by decide) (by decide),
   C10_exact_trace.2.2 "getUser".toList "\n  ".toList deviantTail (by decide) (by decide)
    (by decide)
    (by
      intro c t' h
      have hd : deviantTail = 'c' :: deviantTail.tail := by decide
      rw [hd] at h
      injection h with h1 _
      rw [← h1]
      decide)
    (by decide) (by decide) (by decide)⟩

/-- C2: non-greedy body capture.  For every successful match, the captured
body is followed in the document by a catch-clause head, and no earlier
suffix of the body region starts a catch-clause head: the capture ends at the
earliest textual `catch (error...)` occurrence after `try {`, so a body
containing a nested try/catch is truncated at the inner catch. -/
theorem C2_nongreedy_capture (s : List Char) (r : MRec) (h : matchAt s = some r) :
    ∃ pre t, s = pre ++ (tryLit ++ t) ∧
      findCatch t = some (r.body, r.rest) ∧
      (∃ u, catchHead (t.drop r.body.length) = some u) ∧
      ∀ i, i < r.body.length → catchHead (t.drop i) = none := by
  obtain ⟨ws, t, hws, hs, hne, hw, hto, hfc⟩ := matchAt_elim s r h
  refine ⟨expLit ++ (r.name ++ (declTail ++ (ws ++ r.trace))), t, ?_, hfc, ?_, ?_⟩
  · rw [hs]
    simp [List.append_assoc]
  · obtain ⟨u, v, hteq, hch, _⟩ := findCatch_spec t r.body r.rest hfc
    refine ⟨v, ?_⟩
    rw [hteq, List.drop_left]
    exact hch
  · exact findCatch_noHead t r.body r.rest hfc

/-- A document whose handler body contains a nested try/catch before the
outer catch: the truncation scenario of §4.1. -/
def nestedInput : List Char :=
  ("export const f = async (req: RequestWithTraceContext, res: Response) => \x7b\n" ++
   "try \x7b\n" ++
   "try \x7b a \x7d catch (error) \x7b b \x7d\n" ++
   "\x7d catch (error) \x7b c \x7d\n" ++
   "\x7d;").toList

/-- Witness for C2 on the nested-try/catch document: the captured body is
the text truncated at the inner catch. -/
theorem C2_nongreedy_capture_w :
    ∃ pre t, nestedInput = pre ++ (tryLit ++ t) ∧
      findCatch t = some ((⟨"f".toList, [], "\ntry \x7b a ".toList, []⟩ : MRec).body,
        (⟨"f".toList, [], "\ntry \x7b a ".toList, []⟩ : MRec).rest) ∧
      (∃ u, catchHead
        (t.drop (⟨"f".toList, [], "\ntry \x7b a ".toList, []⟩ : MRec).body.length)
        = some u) ∧
      ∀ i, i < (⟨"f".toList, [], "\ntry \x7b a ".toList, []⟩ : MRec).body.length →
        catchHead (t.drop i) = none :=
  C2_nongreedy_capture nestedInput ⟨"f".toList, [], "\ntry \x7b a ".toList, []⟩ (by decide)

/-! ### Claim C1: the §8 scenario -/

/-- C1 counterexample: on the §8 scenario input, `refactor_controller` does
not return the §8 expected five-line text.  Group 2 of the pattern captures
the trace statement together with its trailing whitespace run (newline and
two spaces), and `replace_func` appends that capture verbatim before the
cleaned body, which itself starts with a newline — so an extra line holding
two spaces appears in the output. -/
theorem C1_scenario_counterexample :
    refactor_controller scenarioInput ≠ scenarioExpected := by
  decide

/-- C1 amended: on the §8 scenario input the transform returns exactly the
§8 expected text except that one additional line consisting of two spaces
(the whitespace captured after the trace statement) stands between the trace
line and the first body line — six lines instead of five. -/
theorem C1_scenario_amended :
    refactor_controller scenarioInput = scenarioActual := by
  decide

/-! ### Claim C6: the frame property of the substitution scan -/

/-- Interleaving of a leading gap and (segment, following gap) pairs. -/
def weave (g0 : List Char) (ps : List (List Char × List Char)) : List Char :=
  g0 ++ (ps.map fun p => p.1 ++ p.2).flatten

theorem weave_cons_gap (c : Char) (g0 : List Char) (ps : List (List Char × List Char)) :
    weave (c :: g0) ps = c :: weave g0 ps := by
  simp [weave]

theorem weave_nil_cons (x g : List Char) (ps : List (List Char × List Char)) :
    weave [] ((x, g) :: ps) = x ++ weave g ps := by
  simp [weave, List.append_assoc]

theorem weave_eq_append (g0 : List Char) (ps : List (List Char × List Char)) :
    weave g0 ps = g0 ++ weave [] ps := by
  simp [weave]

/-- Along a copied gap, the pattern fails to match at every position: at each
successive gap character the text remaining in the document is that
character, the rest of the gap, and the given tail, and `matchAt` returns
`none` there. -/
def GapsOk : List Char → List Char → Prop
  | [], _ => True
  | c :: g, tail => matchAt (c :: (g ++ tail)) = none ∧ GapsOk g tail

/-- Every segment of a decomposition is an actual pattern match: matching at
the segment's start, with the rest of the woven document following, succeeds;
the match's remainder is exactly the rest of the woven document, so the
match's span is precisely the segment; the segment's replacement text is
`replaceFunc` of that match; and the copied gap after the segment is
match-free at every position. -/
def SegsOk : List (List Char × List Char × List Char) → Prop
  | [] => True
  | (d, rep, g) :: ps =>
    (∃ r : MRec,
        matchAt (d ++ weave g (ps.map fun p => (p.1, p.2.2))) = some r
        ∧ r.rest = weave g (ps.map fun p => (p.1, p.2.2))
        ∧ rep = replaceFunc r)
    ∧ GapsOk g (weave [] (ps.map fun p => (p.1, p.2.2)))
    ∧ SegsOk ps

/-- A successful match consumes a nonempty prefix of the document. -/
theorem matchAt_consumed (s : List Char) (r : MRec) (h : matchAt s = some r) :
    ∃ d, s = d ++ r.rest ∧ d ≠ [] := by
  obtain ⟨ws, t, _, hs, _, _, _, hfc⟩ := matchAt_elim s r h
  obtain ⟨u, v, hteq, hch, hcl⟩ := findCatch_spec t r.body r.rest hfc
  obtain ⟨m, _, hu⟩ := (catchHead_iff _ _).mp hch
  obtain ⟨a, w, _, hv⟩ := findClose_spec v r.rest hcl
  have hexp : expLit = 'e' :: "xport const ".toList := by decide
  refine ⟨expLit ++ (r.name ++ (declTail ++ (ws ++ (r.trace ++ (tryLit ++ (r.body ++
      (catchLit ++ (m ++ (a ++ ('\x7d' :: (w ++ closeLit))))))))))), ?_, ?_⟩
  · rw [hs, hteq, hu, hv]
    simp [List.append_assoc]
  · simp [hexp]

/-- Fueled version of the C6 decomposition: the scan splits the document
into an alternation of copied gaps and matched segments, the output is the
same alternation with each matched segment replaced and every gap byte
identical, in the same order, every segment is a genuine `matchAt` success
whose remainder is the rest of the document and whose replacement is
`replaceFunc` of that match, and the pattern matches nowhere inside a gap. -/
theorem subFuel_weave : ∀ (f : Nat) (s : List Char), s.length ≤ f →
    ∃ (g0 : List Char) (ps : List (List Char × List Char × List Char)),
      s = weave g0 (ps.map fun p => (p.1, p.2.2))
      ∧ subFuel f s = weave g0 (ps.map fun p => (p.2.1, p.2.2))
      ∧ (∀ p ∈ ps, p.1 ≠ [])
      ∧ GapsOk g0 (weave [] (ps.map fun p => (p.1, p.2.2)))
      ∧ SegsOk ps := by
  intro f
  induction f with
  | zero =>
    intro s hs
    have hnil : s = [] := List.eq_nil_of_length_eq_zero (Nat.le_zero.mp hs)
    subst hnil
    exact ⟨[], [], rfl, rfl, by simp, True.intro, True.intro⟩
  | succ f ih =>
    intro s hs
    cases s with
    | nil => exact ⟨[], [], rfl, rfl, by simp, True.intro, True.intro⟩
    | cons c t =>
      cases hm : matchAt (c :: t) with
      | none =>
        obtain ⟨g0, ps, h1, h2, h3, h4, h5⟩ := ih t (by
          simp only [List.length_cons] at hs
          omega)
        refine ⟨c :: g0, ps, ?_, ?_, h3, ⟨?_, h4⟩, h5⟩
        · rw [weave_cons_gap, ← h1]
        · rw [subFuel, hm, weave_cons_gap, ← h2]
        · rw [← weave_eq_append, ← h1]
          exact hm
      | some r =>
        obtain ⟨d, hd, hdne⟩ := matchAt_consumed (c :: t) r hm
        have hrl : r.rest.length ≤ f := by
          have h1 : (c :: t).length = d.length + r.rest.length := by rw [hd]; simp
          have h2 : 1 ≤ d.length := by
            cases d with
            | nil => exact absurd rfl hdne
            | cons _ _ => simp
          simp only [List.length_cons] at h1 hs
          omega
        obtain ⟨g0, ps, h1, h2, h3, h4, h5⟩ := ih r.rest hrl
        refine ⟨[], (d, replaceFunc r, g0) :: ps, ?_, ?_, ?_, True.intro,
          ⟨r, ?_, h1, rfl⟩, h4, h5⟩
        · simp only [List.map_cons, weave_nil_cons]
          rw [← h1, ← hd]
        · simp only [List.map_cons, weave_nil_cons]
          rw [subFuel, hm, ← h2]
        · intro p hp
          rcases List.mem_cons.mp hp with hp1 | hp2
          · rw [hp1]
            exact hdne
          · exact h3 p hp2
        · rw [← h1, ← hd]
          exact hm

/-- C6: for every input document, the scan decomposes it as a leading copied
gap followed by an alternation of matched segments and copied gaps, and the
output of `refactor_controller` is the identical alternation with each
matched segment replaced by its rewrite: every byte outside the match spans
appears unchanged and in the same relative order in the output.  The
decomposition is tied to the matcher: `SegsOk` states that every segment is
an actual `matchAt` success whose remainder is exactly the rest of the
document — so the segments are genuine match spans, pairwise non-overlapping
and in document order — and that its replacement text is `replaceFunc` of
that match, and `GapsOk` states that the pattern matches at no position
inside any copied gap. -/
theorem C6_frame (s : List Char) :
    ∃ (g0 : List Char) (ps : List (List Char × List Char × List Char)),
      s = weave g0 (ps.map fun p => (p.1, p.2.2))
      ∧ refactor_controller s = weave g0 (ps.map fun p => (p.2.1, p.2.2))
      ∧ (∀ p ∈ ps, p.1 ≠ [])
      ∧ GapsOk g0 (weave [] (ps.map fun p => (p.1, p.2.2)))
      ∧ SegsOk ps :=
  subFuel_weave s.length s (le_refl _)

/-! ### Claim C5: occurrence machinery for the idempotence proof -/

/-- A catch-clause head occurrence at the start of a string. -/
def HeadOcc (z : List Char) : Prop :=
  ∃ m rest, MidOk m ∧ z = catchLit ++ (m ++ rest)

/-- A catch-clause head occurrence somewhere in a string.  A document with
no such occurrence cannot match the pattern anywhere. -/
def Occ (t : List Char) : Prop := ∃ a z, t = a ++ z ∧ HeadOcc z

theorem headOcc_catchHead (z : List Char) (h : HeadOcc z) :
    ∃ u, catchHead z = some u := by
  obtain ⟨m, rest, hm, hz⟩ := h
  exact ⟨rest, (catchHead_iff z rest).mpr ⟨m, hm, hz⟩⟩

theorem catchHead_headOcc (z u : List Char) (h : catchHead z = some u) : HeadOcc z := by
  obtain ⟨m, hm, hz⟩ := (catchHead_iff z u).mp h
  exact ⟨m, u, hm, hz⟩

theorem headOcc_extend (z w : List Char) (h : HeadOcc z) : HeadOcc (z ++ w) := by
  obtain ⟨m, rest, hm, hz⟩ := h
  exact ⟨m, rest ++ w, hm, by rw [hz]; simp [List.append_assoc]⟩

theorem headOcc_len (z : List Char) (h : HeadOcc z) : 14 ≤ z.length := by
  obtain ⟨m, rest, hm, hz⟩ := h
  have h14 : catchLit.length = 14 := by decide
  rw [hz, List.length_append, h14]
  omega

theorem headOcc_rbrace (z : List Char) (h : HeadOcc z) : ∃ z', z = '\x7d' :: z' := by
  obtain ⟨m, rest, hm, hz⟩ := h
  have hc : catchLit = '\x7d' :: catchLit.tail := by decide
  rw [hz, hc, List.cons_append]
  exact ⟨_, rfl⟩

theorem occ_len (t : List Char) (h : Occ t) : 14 ≤ t.length := by
  obtain ⟨a, z, ht, hh⟩ := h
  have := headOcc_len z hh
  rw [ht, List.length_append]
  omega

theorem occ_nil : ¬ Occ [] := fun h => by
  have := occ_len [] h
  simp at this

theorem occ_prepend (a z : List Char) (h : Occ z) : Occ (a ++ z) := by
  obtain ⟨a', z', hz, hh⟩ := h
  exact ⟨a ++ a', z', by rw [hz, List.append_assoc], hh⟩

theorem occ_append_right (t w : List Char) (h : Occ t) : Occ (t ++ w) := by
  obtain ⟨a, z, ht, hh⟩ := h
  exact ⟨a, z ++ w, by rw [ht, List.append_assoc], headOcc_extend z w hh⟩

theorem occ_head (z : List Char) (h : HeadOcc z) : Occ z := ⟨[], z, rfl, h⟩

theorem occ_append (x y : List Char) (h : Occ (x ++ y)) :
    Occ y ∨ ∃ c, c ≠ [] ∧ c <:+ x ∧ HeadOcc (c ++ y) := by
  obtain ⟨a, z, hxy, hh⟩ := h
  rcases List.append_eq_append_iff.mp hxy with ⟨a', ha, hy⟩ | ⟨c', hc, hz⟩
  · exact Or.inl ⟨a', z, hy, hh⟩
  · by_cases hce : c' = []
    · subst hce
      rw [List.append_nil] at hc
      left
      refine ⟨[], y, rfl, ?_⟩
      rw [List.nil_append] at hz
      rw [hz] at hh
      exact hh
    · right
      refine ⟨c', hce, ⟨a, hc.symm⟩, ?_⟩
      rw [← hz]
      exact hh

theorem occ_cons (c : Char) (t : List Char) (h : Occ (c :: t)) :
    HeadOcc (c :: t) ∨ Occ t := by
  obtain ⟨a, z, hct, hh⟩ := h
  cases a with
  | nil =>
    left
    rw [List.nil_append] at hct
    rw [hct]
    exact hh
  | cons d ds =>
    right
    rw [List.cons_append] at hct
    injection hct with h1 h2
    exact ⟨ds, z, h2, hh⟩

theorem matchAt_occ (s : List Char) (r : MRec) (h : matchAt s = some r) : Occ s := by
  obtain ⟨ws, t, _, hs, _, _, _, hfc⟩ := matchAt_elim s r h
  obtain ⟨u, v, hteq, hch, _⟩ := findCatch_spec t r.body r.rest hfc
  have hocc : Occ t := by
    rw [hteq]
    exact occ_prepend r.body u (occ_head u (catchHead_headOcc u v hch))
  rw [hs]
  have hre : expLit ++ (r.name ++ (declTail ++ (ws ++ (r.trace ++ (tryLit ++ t)))))
      = (expLit ++ (r.name ++ (declTail ++ (ws ++ (r.trace ++ tryLit))))) ++ t := by
    simp [List.append_assoc]
  rw [hre]
  exact occ_prepend _ t hocc

theorem noOcc_matchAt (s : List Char) (h : ¬ Occ s) : matchAt s = none := by
  cases hm : matchAt s with
  | none => rfl
  | some r => exact absurd (matchAt_occ s r hm) h

theorem noOcc_cons (c : Char) (t : List Char) (h : ¬ Occ (c :: t)) : ¬ Occ t :=
  fun ho => h (occ_prepend [c] t ho)

/-- A string with no catch-head occurrence passes through the scan
unchanged, for every fuel value. -/
theorem subFuel_noOcc (f : Nat) : ∀ s, ¬ Occ s → subFuel f s = s := by
  induction f with
  | zero => intro s _; rfl
  | succ f ih =>
    intro s hs
    cases s with
    | nil => rfl
    | cons c t =>
      rw [subFuel, noOcc_matchAt (c :: t) hs, ih t (noOcc_cons c t hs)]

theorem subFuel_nil (f : Nat) : subFuel f [] = [] := by
  cases f <;> rfl

/-- A whole-document match makes the transform return exactly the
replacement text of that match. -/
theorem refactor_eq_repl (s : List Char) (r : MRec) (h : matchAt s = some r)
    (hrest : r.rest = []) : refactor_controller s = replaceFunc r := by
  cases s with
  | nil =>
    exfalso
    have hn : matchAt ([] : List Char) = none := rfl
    rw [hn] at h
    exact absurd h (by simp)
  | cons c t =>
    rw [refactor_controller, List.length_cons]
    simp only [subFuel, h, hrest, subFuel_nil, List.append_nil]

/-- The body of any successful body search contains no catch-head
occurrence (it stops at the earliest one). -/
theorem findCatch_body_noOcc (t b r : List Char) (h : findCatch t = some (b, r)) :
    ¬ Occ b := by
  rintro ⟨a, z, hb, hh⟩
  obtain ⟨u, v, hteq, hch, hfc⟩ := findCatch_spec t b r h
  have hdrop : t.drop a.length = z ++ u := by
    rw [hteq, hb, List.append_assoc, List.drop_left]
  have hex : ∃ u', catchHead (t.drop a.length) = some u' := by
    rw [hdrop]
    exact headOcc_catchHead (z ++ u) (headOcc_extend z u hh)
  have hlen : a.length < b.length := by
    have h14 := headOcc_len z hh
    rw [hb, List.length_append]
    omega
  obtain ⟨u', hu'⟩ := hex
  rw [findCatch_noHead t b r h a.length hlen] at hu'
  exact absurd hu' (by simp)

/-! ### Claim C5: transfer of no-occurrence through the body rewriter -/

theorem rstrip_split (x : List Char) : ∃ w, AllWs w ∧ x = rstrip x ++ w := by
  refine ⟨(x.reverse.takeWhile pyWs).reverse, ?_, ?_⟩
  · intro c hc
    rw [List.mem_reverse] at hc
    exact List.mem_takeWhile_imp hc
  · rw [rstrip, ← List.reverse_append, List.takeWhile_append_dropWhile,
      List.reverse_reverse]

theorem occ_rstrip (x : List Char) (h : ¬ Occ x) : ¬ Occ (rstrip x) := by
  intro ho
  obtain ⟨w, _, hx⟩ := rstrip_split x
  exact h (by rw [hx]; exact occ_append_right _ w ho)

theorem cleanLine_cases (l : List Char) :
    cleanLine l = l ∨ ∃ l', l = sp4 ++ l' ∧ cleanLine l = l' := by
  by_cases h : sp4.isPrefixOf l = true
  · right
    obtain ⟨l', hl⟩ := List.isPrefixOf_iff_prefix.mp h
    refine ⟨l', hl.symm, ?_⟩
    have h4 : sp4.length = 4 := by decide
    rw [cleanLine, if_pos h, ← hl, ← h4, List.drop_left]
  · left
    rw [cleanLine, if_neg h]

theorem cleanLine_suffix (l : List Char) : cleanLine l <:+ l := by
  rcases cleanLine_cases l with h | ⟨l', hl, hc⟩
  · rw [h]
  · rw [hc, hl]
    exact ⟨sp4, rfl⟩

theorem allWs_cleanLine (l : List Char) (h : AllWs (cleanLine l)) : AllWs l := by
  rcases cleanLine_cases l with hc | ⟨l', hl, hc⟩
  · rw [← hc]
    exact h
  · rw [hl]
    intro c hcm
    rcases List.mem_append.mp hcm with h1 | h2
    · exact (by decide : AllWs sp4) c h1
    · exact h c (by rw [hc]; exact h2)

theorem splitNL_ne_nil : ∀ b : List Char, splitNL b ≠ [] := by
  intro b
  cases b with
  | nil => simp [splitNL]
  | cons c t =>
    rw [splitNL]
    by_cases hc : c = '\n'
    · simp [hc]
    · rw [if_neg hc]
      cases hsp : splitNL t with
      | nil => simp
      | cons h r => simp

theorem joinNL_cons_cons (l l2 : List Char) (r : List (List Char)) :
    joinNL (l :: l2 :: r) = l ++ '\n' :: joinNL (l2 :: r) := rfl

theorem joinNL_splitNL : ∀ b : List Char, joinNL (splitNL b) = b := by
  intro b
  induction b with
  | nil => rfl
  | cons c t ih =>
    rw [splitNL]
    by_cases hc : c = '\n'
    · rw [if_pos hc]
      cases hsp : splitNL t with
      | nil => exact absurd hsp (splitNL_ne_nil t)
      | cons h r =>
        rw [joinNL_cons_cons, List.nil_append, ← hsp, ih, hc]
    · rw [if_neg hc]
      cases hsp : splitNL t with
      | nil => exact absurd hsp (splitNL_ne_nil t)
      | cons h r =>
        rw [hsp] at ih
        show joinNL ((c :: h) :: r) = c :: t
        cases r with
        | nil =>
          have hh : h = t := ih
          show c :: h = c :: t
          rw [hh]
        | cons r2 rs =>
          rw [joinNL_cons_cons]
          rw [joinNL_cons_cons] at ih
          rw [List.cons_append, ih]

/-- The shape "whitespace then `any) {`": what remains of a catch-clause
head whose colon lies on an earlier line. -/
def TailHead (t : List Char) : Prop :=
  ∃ w rest, AllWs w ∧ t = w ++ (anyLit ++ rest)

theorem tailHead_join_clean : ∀ lines : List (List Char),
    TailHead (joinNL (lines.map cleanLine)) → TailHead (joinNL lines) := by
  intro lines
  induction lines with
  | nil =>
    intro h
    exfalso
    obtain ⟨w, rest, hw, he⟩ := h
    have hlen := congrArg List.length he
    have h6 : anyLit.length = 6 := by decide
    simp [List.length_append, h6, joinNL] at hlen
    omega
  | cons l ls ih =>
    intro h
    cases ls with
    | nil =>
      have hT : joinNL ([l].map cleanLine) = cleanLine l := rfl
      rw [hT] at h
      obtain ⟨w, rest, hw, he⟩ := h
      rcases cleanLine_cases l with hc | ⟨l', hl, hc⟩
      · rw [hc] at he
        exact ⟨w, rest, hw, he⟩
      · rw [hc] at he
        refine ⟨sp4 ++ w, rest, ?_, ?_⟩
        · intro c hcm
          rcases List.mem_append.mp hcm with h1 | h2
          · exact (by decide : AllWs sp4) c h1
          · exact hw c h2
        · show l = (sp4 ++ w) ++ (anyLit ++ rest)
          rw [hl, he, List.append_assoc]
    | cons l2 ls2 =>
      rw [List.map_cons, List.map_cons, joinNL_cons_cons] at h
      obtain ⟨w, rest, hw, he⟩ := h
      rw [joinNL_cons_cons]
      rcases List.append_eq_append_iff.mp he with ⟨a', hwa, hnj⟩ | ⟨c', hcl, har⟩
      · -- the whole first cleaned line lies inside the whitespace run
        have hlw : AllWs (cleanLine l) := by
          intro c hcm
          exact hw c (by rw [hwa]; exact List.mem_append.mpr (Or.inl hcm))
        have hla : AllWs l := allWs_cleanLine l hlw
        have haw : AllWs a' := by
          intro c hcm
          exact hw c (by rw [hwa]; exact List.mem_append.mpr (Or.inr hcm))
        cases a' with
        | nil =>
          exfalso
          rw [List.nil_append] at hnj
          have hal : anyLit = 'a' :: anyLit.tail := by decide
          rw [hal, List.cons_append] at hnj
          injection hnj with h1 _
          exact absurd h1 (by decide)
        | cons x a2 =>
          rw [List.cons_append] at hnj
          injection hnj with h1 h2
          have hth : TailHead (joinNL ((l2 :: ls2).map cleanLine)) := by
            refine ⟨a2, rest, ?_, h2⟩
            intro c hcm
            exact haw c (List.mem_cons_of_mem x hcm)
          obtain ⟨w2, r2, hw2, hO⟩ := ih hth
          refine ⟨l ++ '\n' :: w2, r2, ?_, ?_⟩
          · intro c hcm
            rcases List.mem_append.mp hcm with hm1 | hm2
            · exact hla c hm1
            · rcases List.mem_cons.mp hm2 with hm3 | hm4
              · rw [hm3]; decide
              · exact hw2 c hm4
          · rw [hO]
            simp [List.append_assoc]
      · -- the whitespace run ends inside the first cleaned line
        rcases List.append_eq_append_iff.mp har with ⟨b', hcb, hrest⟩ | ⟨e', hae, hnj⟩
        · -- the `any) {` literal lies fully inside the first cleaned line
          have hclean : cleanLine l = w ++ (anyLit ++ b') := by
            rw [hcl, hcb]
          rcases cleanLine_cases l with hc | ⟨l', hl, hc⟩
          · refine ⟨w, b' ++ ('\n' :: joinNL (l2 :: ls2)), hw, ?_⟩
            rw [← hc, hclean]
            simp [List.append_assoc]
          · refine ⟨sp4 ++ w, b' ++ ('\n' :: joinNL (l2 :: ls2)), ?_, ?_⟩
            · intro c hcm
              rcases List.mem_append.mp hcm with h1 | h2
              · exact (by decide : AllWs sp4) c h1
              · exact hw c h2
            · rw [hc] at hclean
              rw [hl, hclean]
              simp [List.append_assoc]
        · by_cases hee : e' = []
          · subst hee
            rw [List.append_nil] at hae
            have hclean : cleanLine l = w ++ (anyLit ++ []) := by
              rw [hcl, hae, List.append_nil]
            rcases cleanLine_cases l with hc | ⟨l', hl, hc⟩
            · refine ⟨w, '\n' :: joinNL (l2 :: ls2), hw, ?_⟩
              rw [← hc, hclean]
              simp [List.append_assoc]
            · refine ⟨sp4 ++ w, '\n' :: joinNL (l2 :: ls2), ?_, ?_⟩
              · intro c hcm
                rcases List.mem_append.mp hcm with h1 | h2
                · exact (by decide : AllWs sp4) c h1
                · exact hw c h2
              · rw [hc] at hclean
                rw [hl, hclean]
                simp [List.append_assoc]
          · exfalso
            obtain ⟨e0, e1, he'⟩ := List.exists_cons_of_ne_nil hee
            rw [he', List.cons_append] at hnj
            injection hnj with h1 _
            have hmem : e0 ∈ anyLit := by
              rw [hae, he']
              exact List.mem_append.mpr (Or.inr (by simp))
            rw [← h1] at hmem
            exact absurd hmem (by decide)

theorem headOcc_straddle (c z : List Char) (h : HeadOcc (c ++ z)) :
    c <+: catchLit ∨ catchLit <+: c := by
  obtain ⟨m, rest, hm, heq⟩ := h
  exact List.prefix_or_prefix_of_prefix ⟨z, rfl⟩ ⟨m ++ rest, heq.symm⟩

theorem headOcc_straddle_rbrace (c z : List Char) (hne : c ≠ [])
    (h : HeadOcc (c ++ z)) : ∃ cs, c = '\x7d' :: cs := by
  rcases headOcc_straddle c z h with h1 | h2
  · obtain ⟨d, ds, hds⟩ := List.exists_cons_of_ne_nil hne
    rw [hds] at h1
    have hcl : catchLit = '\x7d' :: catchLit.tail := by decide
    rw [hcl, List.cons_prefix_cons] at h1
    exact ⟨ds, by rw [hds, h1.1]⟩
  · obtain ⟨e, he⟩ := h2
    have hcl : catchLit = '\x7d' :: catchLit.tail := by decide
    rw [hcl, List.cons_append] at he
    exact ⟨catchLit.tail ++ e, he.symm⟩

theorem suffix_head_mem (c X : List Char) (d : Char) (ds : List Char)
    (hs : c <:+ X) (hc : c = d :: ds) : d ∈ X := by
  apply hs.subset
  rw [hc]
  simp

theorem headOcc_split (c y : List Char) (h : HeadOcc (c ++ y)) :
    (∀ y', HeadOcc (c ++ y')) ∨
    ∃ m e, MidOk m ∧ e ≠ [] ∧ catchLit ++ m = c ++ e ∧ e <+: y := by
  obtain ⟨m, rest, hm, hz⟩ := h
  have hz' : (catchLit ++ m) ++ rest = c ++ y := by
    rw [List.append_assoc, ← hz]
  rcases List.append_eq_append_iff.mp hz' with ⟨a', hca, hra⟩ | ⟨e, hce, hye⟩
  · left
    intro y'
    exact ⟨m, a' ++ y', hm, by rw [hca]; simp [List.append_assoc]⟩
  · by_cases hee : e = []
    · subst hee
      rw [List.append_nil] at hce
      left
      intro y'
      exact ⟨m, y', hm, by rw [← hce]; simp [List.append_assoc]⟩
    · exact Or.inr ⟨m, e, hm, hee, hce, ⟨rest, hye.symm⟩⟩

/-- No-occurrence survives the per-line de-indentation: a catch-head
occurrence in the cleaned, re-joined line list gives one in the original
line list (re-inserting the removed leading spaces only lengthens a
whitespace run inside the occurrence, or lies outside it). -/
theorem occ_join_clean : ∀ lines : List (List Char),
    Occ (joinNL (lines.map cleanLine)) → Occ (joinNL lines) := by
  intro lines
  induction lines with
  | nil => intro h; exact absurd h occ_nil
  | cons l ls ih =>
    intro h
    cases ls with
    | nil =>
      have hT : joinNL ([l].map cleanLine) = cleanLine l := rfl
      rw [hT] at h
      show Occ (joinNL [l])
      rcases cleanLine_cases l with hc | ⟨l', hl, hc⟩
      · rw [hc] at h
        exact h
      · rw [hc] at h
        show Occ l
        rw [hl]
        exact occ_prepend sp4 l' h
    | cons l2 ls2 =>
      rw [List.map_cons, List.map_cons, joinNL_cons_cons] at h
      rw [joinNL_cons_cons]
      rcases occ_append _ _ h with hy | ⟨c, hcne, hcs, hho⟩
      · rcases occ_cons _ _ hy with hh | ho
        · exfalso
          obtain ⟨z', hz'⟩ := headOcc_rbrace _ hh
          injection hz' with h1 _
          exact absurd h1 (by decide)
        · have hO := ih ho
          have hsplit : l ++ '\n' :: joinNL (l2 :: ls2)
              = (l ++ ['\n']) ++ joinNL (l2 :: ls2) := by
            simp
          rw [hsplit]
          exact occ_prepend _ _ hO
      · have hcll : c <:+ l := hcs.trans (cleanLine_suffix l)
        obtain ⟨d, hd⟩ := hcll
        rcases headOcc_split c _ hho with hA | ⟨m, e, hm, hene, hce, hey⟩
        · refine ⟨d, c ++ ('\n' :: joinNL (l2 :: ls2)), ?_, hA _⟩
          rw [← hd]
          simp [List.append_assoc]
        · obtain ⟨e0, e1, he01⟩ := List.exists_cons_of_ne_nil hene
          obtain ⟨q, hq⟩ := hey
          rw [he01, List.cons_append] at hq
          injection hq with hq1 hq2
          subst hq1
          rcases hm with hmp | ⟨w', hw', hmw⟩
          · exfalso
            have hmem : '\n' ∈ catchLit ++ m :=
              suffix_head_mem e _ '\n' e1 ⟨c, hce.symm⟩ he01
            rw [hmp] at hmem
            exact absurd hmem (by decide)
          · subst hmw
            have h6 : anyLit.length = 6 := by decide
            have hesuf : e <:+ catchLit ++ (':' :: (w' ++ anyLit)) := ⟨c, hce.symm⟩
            have hasuf : anyLit <:+ catchLit ++ (':' :: (w' ++ anyLit)) :=
              ⟨catchLit ++ (':' :: w'), by simp [List.append_assoc]⟩
            by_cases hlen : e.length ≤ anyLit.length
            · exfalso
              have hea : e <:+ anyLit :=
                List.suffix_of_suffix_length_le hesuf hasuf hlen
              have hmem : '\n' ∈ anyLit := suffix_head_mem e anyLit '\n' e1 hea he01
              exact absurd hmem (by decide)
            · have hae : anyLit <:+ e :=
                List.suffix_of_suffix_length_le hasuf hesuf (by omega)
              obtain ⟨e2, he2⟩ := hae
              have he2ne : e2 ≠ [] := by
                intro hz
                rw [hz, List.nil_append] at he2
                rw [← he2] at hlen
                exact hlen (le_refl _)
              have hcan : catchLit ++ (':' :: w') = c ++ e2 := by
                have hx : (catchLit ++ (':' :: w')) ++ anyLit = (c ++ e2) ++ anyLit := by
                  rw [List.append_assoc c e2 anyLit, he2, ← hce]
                  simp [List.append_assoc]
                exact List.append_cancel_right hx
              obtain ⟨x, e3, he23⟩ := List.exists_cons_of_ne_nil he2ne
              have hx0 : x :: (e3 ++ anyLit) = '\n' :: e1 := by
                rw [← List.cons_append, ← he23, he2, he01]
              have hxnl : x = '\n' := by
                injection hx0 with hinj _
              have he1eq : e1 = e3 ++ anyLit := by
                injection hx0 with _ hinj
                exact hinj.symm
              subst hxnl
              -- position of e2 relative to the whitespace run w'
              have he2suf : e2 <:+ (catchLit ++ [':']) ++ w' := by
                refine ⟨c, ?_⟩
                rw [← hcan]
                simp [List.append_assoc]
              have hwsuf : w' <:+ (catchLit ++ [':']) ++ w' := ⟨catchLit ++ [':'], rfl⟩
              have hsp : (catchLit ++ [':']) ++ w' = c ++ e2 := by
                rw [← hcan]
                simp [List.append_assoc]
              by_cases hlen2 : e2.length ≤ w'.length
              · -- e2 lies inside the whitespace run: rebuild the head across
                -- the original line break
                have he2w : e2 <:+ w' :=
                  List.suffix_of_suffix_length_le he2suf hwsuf hlen2
                have he2ws : AllWs e2 := fun ch hch => hw' ch (he2w.subset hch)
                have he3ws : AllWs e3 := fun ch hch =>
                  he2ws ch (by rw [he23]; exact List.mem_cons_of_mem _ hch)
                rcases List.append_eq_append_iff.mp hsp with ⟨a', hca, hwa⟩ | ⟨c0, hcc, hec⟩
                · -- c = (catchLit ++ [':']) ++ a'
                  have ha'ws : AllWs a' := fun ch hch =>
                    hw' ch (by rw [hwa]; exact List.mem_append.mpr (Or.inl hch))
                  have hth : TailHead (joinNL ((l2 :: ls2).map cleanLine)) := by
                    refine ⟨e3, q, he3ws, ?_⟩
                    rw [List.map_cons, ← hq2, he1eq]
                    simp [List.append_assoc]
                  obtain ⟨w2, r2, hw2, hO⟩ := tailHead_join_clean (l2 :: ls2) hth
                  refine ⟨d, c ++ ('\n' :: joinNL (l2 :: ls2)), ?_, ?_⟩
                  · rw [← hd]
                    simp [List.append_assoc]
                  · refine ⟨':' :: ((a' ++ '\n' :: w2) ++ anyLit), r2,
                      Or.inr ⟨a' ++ '\n' :: w2, ?_, rfl⟩, ?_⟩
                    · intro ch hch
                      rcases List.mem_append.mp hch with hm1 | hm2
                      · exact ha'ws ch hm1
                      · rcases List.mem_cons.mp hm2 with hm3 | hm4
                        · rw [hm3]; decide
                        · exact hw2 ch hm4
                    · rw [hca, hO]
                      simp [List.append_assoc]
                · -- the boundary would fall inside `catchLit ++ [':']`
                  by_cases hc0 : c0 = []
                  · -- then c = catchLit ++ [':'] and e2 = w'
                    subst hc0
                    rw [List.append_nil] at hcc
                    rw [List.nil_append] at hec
                    have hth : TailHead (joinNL ((l2 :: ls2).map cleanLine)) := by
                      refine ⟨e3, q, he3ws, ?_⟩
                      rw [List.map_cons, ← hq2, he1eq]
                      simp [List.append_assoc]
                    obtain ⟨w2, r2, hw2, hO⟩ := tailHead_join_clean (l2 :: ls2) hth
                    refine ⟨d, c ++ ('\n' :: joinNL (l2 :: ls2)), ?_, ?_⟩
                    · rw [← hd]
                      simp [List.append_assoc]
                    · refine ⟨':' :: (('\n' :: w2) ++ anyLit), r2,
                        Or.inr ⟨'\n' :: w2, ?_, rfl⟩, ?_⟩
                      · intro ch hch
                        rcases List.mem_cons.mp hch with hm3 | hm4
                        · rw [hm3]; decide
                        · exact hw2 ch hm4
                      · rw [← hcc, hO]
                        simp [List.append_assoc]
                  · exfalso
                    obtain ⟨y0, y1, hy01⟩ := List.exists_cons_of_ne_nil hc0
                    have hy0 : y0 = '\n' := by
                      rw [he23] at hec
                      rw [hy01, List.cons_append] at hec
                      injection hec with hinj _
                      exact hinj.symm
                    have hmem : y0 ∈ catchLit ++ [':'] :=
                      suffix_head_mem c0 _ y0 y1 ⟨c, hcc.symm⟩ hy01
                    rw [hy0] at hmem
                    exact absurd hmem (by decide)
              · exfalso
                have hwe2 : w' <:+ e2 :=
                  List.suffix_of_suffix_length_le hwsuf he2suf (by omega)
                obtain ⟨e4, he4⟩ := hwe2
                have he4ne : e4 ≠ [] := by
                  intro hz
                  rw [hz, List.nil_append] at he4
                  rw [he4] at hlen2
                  exact hlen2 (le_refl _)
                have hcan2 : catchLit ++ [':'] = c ++ e4 := by
                  have hx : (catchLit ++ [':']) ++ w' = (c ++ e4) ++ w' := by
                    rw [List.append_assoc c e4 w', he4]
                    exact hsp
                  exact List.append_cancel_right hx
                obtain ⟨z0, z1, hz01⟩ := List.exists_cons_of_ne_nil he4ne
                have hz0 : z0 = '\n' := by
                  have h0 : z0 :: (z1 ++ w') = '\n' :: e3 := by
                    rw [← List.cons_append, ← hz01, he4, he23]
                  injection h0 with hinj _
                have hmem : z0 ∈ catchLit ++ [':'] :=
                  suffix_head_mem e4 _ z0 z1 ⟨c, hcan2.symm⟩ hz01
                rw [hz0] at hmem
                exact absurd hmem (by decide)

theorem noOcc_cleanBody (b : List Char) (h : ¬ Occ b) :
    ¬ Occ (rstrip (cleanJoin b)) := by
  apply occ_rstrip
  intro ho
  apply h
  have hoc := occ_join_clean (splitNL b) ho
  rw [joinNL_splitNL] at hoc
  exact hoc

theorem noOcc_newDecl_mem (n : List Char) (hne : n ≠ [])
    (hw : ∀ c ∈ n, isWordC c = true) : '\x7d' ∉ mkNewDecl (declOf n) := by
  rw [mkNewDecl_val n hne hw]
  intro hmem
  rcases List.mem_append.mp hmem with h1 | h2
  · rcases List.mem_append.mp h1 with h3 | h4
    · exact absurd h3 (by decide)
    · exact absurd (hw _ h4) (by decide)
  · exact absurd h2 (by decide)

/-- No catch-clause head occurs in the cleaned body followed by the closing
tokens `\n});`. -/
theorem noOcc_tail (cb : List Char) (hcb : ¬ Occ cb) : ¬ Occ (cb ++ endLit) := by
  intro h
  rcases occ_append _ _ h with h1 | ⟨c, hcne, hcs, hho⟩
  · have hl := occ_len _ h1
    have h4 : endLit.length = 4 := by decide
    omega
  · obtain ⟨m, rest, hm, heq⟩ := hho
    have heq' : (catchLit ++ m) ++ rest = c ++ endLit := by
      rw [List.append_assoc, ← heq]
    rcases List.append_eq_append_iff.mp heq' with ⟨a', hca, hra⟩ | ⟨e, hce, hye⟩
    · apply hcb
      obtain ⟨d, hd⟩ := hcs
      exact ⟨d, c, hd.symm, ⟨m, a', hm, by rw [hca, List.append_assoc]⟩⟩
    · by_cases hee : e = []
      · subst hee
        rw [List.append_nil] at hce
        apply hcb
        obtain ⟨d, hd⟩ := hcs
        refine ⟨d, c, hd.symm, ⟨m, [], hm, ?_⟩⟩
        rw [← hce]
        simp
      · obtain ⟨e0, e1, he01⟩ := List.exists_cons_of_ne_nil hee
        have he0 : e0 = '\n' := by
          have hend : endLit = '\n' :: '\x7d' :: ')' :: ';' :: [] := by decide
          rw [hend, he01, List.cons_append] at hye
          injection hye with hinj _
          exact hinj.symm
        have hesuf : e <:+ catchLit ++ m := ⟨c, hce.symm⟩
        rcases hm with hmp | ⟨w', hw', hmw⟩
        · have hmem : e0 ∈ catchLit ++ m := suffix_head_mem e _ e0 e1 hesuf he01
          rw [he0, hmp] at hmem
          exact absurd hmem (by decide)
        · have helen : e.length ≤ 4 := by
            have hl := congrArg List.length hye
            have h4 : endLit.length = 4 := by decide
            rw [h4, List.length_append] at hl
            omega
          have hasuf : anyLit <:+ catchLit ++ m := by
            rw [hmw]
            exact ⟨catchLit ++ (':' :: w'), by simp [List.append_assoc]⟩
          have hea : e <:+ anyLit :=
            List.suffix_of_suffix_length_le hesuf hasuf (by
              have h6 : anyLit.length = 6 := by decide
              omega)
          have hmem : e0 ∈ anyLit := suffix_head_mem e anyLit e0 e1 hea he01
          rw [he0] at hmem
          exact absurd hmem (by decide)

/-- No catch-clause head occurs in the trace capture followed by the cleaned
body and the closing tokens. -/
theorem noOcc_trace_tail (tr cb : List Char) (hto : TraceOk tr) (hcb : ¬ Occ cb) :
    ¬ Occ (tr ++ (cb ++ endLit)) := by
  intro h
  have htail := noOcc_tail cb hcb
  rcases hto with h0 | ⟨w, hw, htr⟩
  · rw [h0, List.nil_append] at h
    exact htail h
  · rw [htr, List.append_assoc] at h
    rcases occ_append _ _ h with h1 | ⟨c, hcne, hcs, hho⟩
    · rcases occ_append _ _ h1 with h2 | ⟨c, hcne, hcs, hho⟩
      · exact htail h2
      · obtain ⟨cs, hcc⟩ := headOcc_straddle_rbrace c _ hcne hho
        exact absurd (hw _ (suffix_head_mem c _ '\x7d' cs hcs hcc)) (by decide)
    · rcases headOcc_straddle c _ hho with hp1 | hp2
      · have hct : c ∈ traceLit.tails := (List.mem_tails c traceLit).mpr hcs
        have hdec : ∀ x ∈ traceLit.tails, x = [] ∨ ¬ x <+: catchLit := by decide
        rcases hdec c hct with h3 | h3
        · exact hcne h3
        · exact h3 hp1
      · have hct : c ∈ traceLit.tails := (List.mem_tails c traceLit).mpr hcs
        have hdec : ∀ x ∈ traceLit.tails, x = [] ∨ ¬ catchLit <+: x := by decide
        rcases hdec c hct with h3 | h3
        · exact hcne h3
        · exact h3 hp2

/-- The replacement text of a match contains no catch-clause head, hence no
match, anywhere. -/
theorem noOcc_replaceFunc (r : MRec) (hne : r.name ≠ [])
    (hw : ∀ c ∈ r.name, isWordC c = true) (hto : TraceOk r.trace)
    (hbody : ¬ Occ r.body) : ¬ Occ (replaceFunc r) := by
  intro hocc
  have hcb : ¬ Occ (rstrip (cleanJoin r.body)) := noOcc_cleanBody r.body hbody
  have htt : ¬ Occ ((if r.trace.isEmpty then [] else r.trace)
      ++ (rstrip (cleanJoin r.body) ++ endLit)) := by
    by_cases hemp : r.trace.isEmpty = true
    · rw [if_pos hemp, List.nil_append]
      exact noOcc_tail _ hcb
    · rw [if_neg hemp]
      exact noOcc_trace_tail r.trace _ hto hcb
  have hshape : replaceFunc r = mkNewDecl (declOf r.name)
      ++ ('\n' :: ((if r.trace.isEmpty then [] else r.trace)
        ++ (rstrip (cleanJoin r.body) ++ endLit))) := by
    rw [replaceFunc]
    simp [List.append_assoc, show "\n".toList = ['\n'] from rfl]
  rw [hshape] at hocc
  rcases occ_append _ _ hocc with h1 | ⟨c, hcne, hcs, hho⟩
  · rcases occ_cons _ _ h1 with h2 | h2
    · obtain ⟨z', hz'⟩ := headOcc_rbrace _ h2
      injection hz' with hx _
      exact absurd hx (by decide)
    · exact htt h2
  · obtain ⟨cs, hcc⟩ := headOcc_straddle_rbrace c _ hcne hho
    exact absurd (suffix_head_mem c _ '\x7d' cs hcs hcc)
      (noOcc_newDecl_mem r.name hne hw)

/-- C5: idempotence after rewrite.  For a document consisting solely of one
matching handler (the match starts at the beginning of the document and its
span is the whole document), applying the transform twice yields the same
result as applying it once: the rewritten declaration assigns
`asyncHandler(async (` instead of `async (` and the replacement text
contains no catch-clause head at all, so the document produced by the first
pass matches nowhere on the second pass. -/
theorem C5_idempotent (s : List Char) (r : MRec) (h : matchAt s = some r)
    (hrest : r.rest = []) :
    refactor_controller (refactor_controller s) = refactor_controller s := by
  obtain ⟨ws, t, hws, hs, hne, hw, hto, hfc⟩ := matchAt_elim s r h
  have h1 : refactor_controller s = replaceFunc r := refactor_eq_repl s r h hrest
  have hbody : ¬ Occ r.body := findCatch_body_noOcc t r.body r.rest hfc
  have hno : ¬ Occ (replaceFunc r) := noOcc_replaceFunc r hne hw hto hbody
  rw [h1]
  exact subFuel_noOcc _ (replaceFunc r) hno

/-- Witness for C5 on the §8 scenario document, which is a single
whole-document match. -/
theorem C5_idempotent_w :
    refactor_controller (refactor_controller scenarioInput)
      = refactor_controller scenarioInput :=
  C5_idempotent scenarioInput
    ⟨"getUser".toList, "const \x7b traceId, spanId \x7d = req;\n  ".toList,
      "\n    const user = await fetchUser(req.params.id);\n    res.json(user);\n  ".toList,
      []⟩
    (by decide) (by decide)

end Refactor
